import Mathlib

/-!
Verification of the CMAEL(CD) tableau decision procedure.

This file gives a shallow embedding of the core of the `cmaelcd`
repository (formula data model, canonical keys, formula sets, the α/β
classifier, the expansion engine and the three-phase tableau procedure)
and proves or refutes the frozen claims about it.

Conventions of the embedding:
* TypeScript `Formula` objects become the inductive type `CMAEL.Formula`;
  coalitions are plain `List String` values (the TS type stores a sorted,
  deduplicated array, produced by the `D`/`C` smart constructors).
* A TypeScript `FormulaSet` (an insertion-ordered `Map` keyed by
  `formulaKey`) becomes a `List Formula` whose elements have pairwise
  distinct keys; `fsAdd` appends only when the key is absent, exactly as
  `FormulaSet.add` does.
* JavaScript string sorting (used by `FormulaSet.key`) is code-unit
  lexicographic; `lexLe` reproduces it on `List Char`.
* Unbounded `while` loops of the source are modelled with explicit fuel;
  termination of the expansion engine is proved separately.
-/

namespace CMAEL

/-- Agents are plain strings, as in the source. -/
abbrev Agent := String

/-- A coalition is stored as a list of agents (the TS `Coalition` is a
readonly array, sorted and deduplicated by `normalizeCoalition`). -/
abbrev Coalition := List Agent

/-- The formula AST of `types.ts`: atoms, negation, conjunction,
distributed knowledge `D` and common knowledge `C`. -/
inductive Formula where
  | atom (name : String) : Formula
  | not (sub : Formula) : Formula
  | and (left right : Formula) : Formula
  | D (coalition : Coalition) (sub : Formula) : Formula
  | C (coalition : Coalition) (sub : Formula) : Formula
deriving DecidableEq, Repr

/-- Code-unit lexicographic comparison of character lists; this is the
order JavaScript's default string comparison and `Array.sort` use. -/
def lexLe : List Char → List Char → Bool
  | [], _ => true
  | _ :: _, [] => false
  | a :: as, b :: bs =>
    if a.toNat < b.toNat then true
    else if b.toNat < a.toNat then false
    else lexLe as bs

/-- String comparison used for sorting keys, via `lexLe` on the data. -/
def strLe (a b : String) : Bool := lexLe a.data b.data

/-- Insert a string into a sorted list of strings (helper for `sortKeys`). -/
def insertKey (k : String) : List String → List String
  | [] => [k]
  | x :: xs => if strLe k x then k :: x :: xs else x :: insertKey k xs

/-- Sort a list of strings in code-unit lexicographic order; models the
JavaScript `Array.sort()` call in `FormulaSet.key`. -/
def sortKeys : List String → List String
  | [] => []
  | x :: xs => insertKey x (sortKeys xs)

/-- `normalizeCoalition` of `types.ts`: deduplicate and sort the agent
list.  The TS function throws on an empty coalition; the embedding
returns `[]` there (no call site inside the engine passes an empty
list, see `normalizeCoalition_singleton`). -/
def normalizeCoalition (agents : List Agent) : Coalition :=
  sortKeys agents.dedup

/-- The smart constructor `D` of `types.ts`, which normalizes the
coalition before storing it. -/
def mkD (coalition : List Agent) (sub : Formula) : Formula :=
  Formula.D (normalizeCoalition coalition) sub

/-- The smart constructor `C` of `types.ts`. -/
def mkC (coalition : List Agent) (sub : Formula) : Formula :=
  Formula.C (normalizeCoalition coalition) sub

/-- `coalitionSubset` of `types.ts`: every agent of `a` occurs in `b`. -/
def coalitionSubset (a b : Coalition) : Bool :=
  a.all (fun agent => b.contains agent)

/-- `coalitionIntersects` of `types.ts`: some agent of `a` occurs in `b`. -/
def coalitionIntersects (a b : Coalition) : Bool :=
  a.any (fun agent => b.contains agent)

/-- The JavaScript `Array.join(",")` used inside `formulaKey` and
`FormulaSet.key`. -/
def joinComma : List String → String
  | [] => ""
  | [a] => a
  | a :: rest => a ++ "," ++ joinComma rest

/-- `formulaKey` of `types.ts`: the canonical string key of a formula.
Braces around coalitions are written with escapes. -/
def formulaKey : Formula → String
  | .atom n => n
  | .not s => "~" ++ formulaKey s
  | .and l r => "(" ++ formulaKey l ++ "&" ++ formulaKey r ++ ")"
  | .D co s => "D\x7b" ++ joinComma co ++ "\x7d" ++ formulaKey s
  | .C co s => "C\x7b" ++ joinComma co ++ "\x7d" ++ formulaKey s

/-- `formulaEqual` of `types.ts`: equality of canonical keys. -/
def formulaEqual (a b : Formula) : Bool := formulaKey a == formulaKey b

/-- A TS `FormulaSet`: the list of stored formulas in insertion order.
All operations below dedup by `formulaKey`, as the `Map` does. -/
abbrev FormulaSet := List Formula

/-- `FormulaSet.has`: membership by canonical key. -/
def fsHas (s : FormulaSet) (f : Formula) : Bool :=
  s.any (fun g => formulaKey g == formulaKey f)

/-- `FormulaSet.add`: append the formula unless its key is present. -/
def fsAdd (s : FormulaSet) (f : Formula) : FormulaSet :=
  if fsHas s f then s else s ++ [f]

/-- Add a whole list of formulas in order (the `FormulaSet` constructor). -/
def fsOfList (l : List Formula) : FormulaSet :=
  l.foldl fsAdd []

/-- `FormulaSet.key`: braces around the comma-joined sorted member keys. -/
def fsKey (s : FormulaSet) : String :=
  "\x7b" ++ joinComma (sortKeys (s.map formulaKey)) ++ "\x7d"

/-- Classification result of `classify.ts`. -/
inductive Classification where
  | elementary : Classification
  | alpha (components : List Formula) : Classification
  | beta (components : List Formula) : Classification
deriving DecidableEq, Repr

/-- `classifyFormula` of `classify.ts`, case for case.  The `D([a], inner)`
constructor calls of the source become `mkD [a] inner`. -/
def classifyFormula : Formula → Classification
  | .atom _ => .elementary
  | .not (.atom _) => .elementary
  | .not (.not s) => .alpha [s]
  | .not (.and l r) => .beta [.not l, .not r]
  | .not (.D _ _) => .elementary
  | .not (.C co s) =>
    .beta (Formula.not s :: co.map (fun a => Formula.not (mkD [a] (Formula.C co s))))
  | .and l r => .alpha [l, r]
  | .D co s => .alpha [Formula.D co s, s]
  | .C co s => .alpha (s :: co.map (fun a => mkD [a] (Formula.C co s)))

/-- The component list of a formula (empty for elementary ones); a
convenience view of `classifyFormula`. -/
def componentsOf (f : Formula) : List Formula :=
  match classifyFormula f with
  | .elementary => []
  | .alpha cs => cs
  | .beta cs => cs

/-- `isPatentlyInconsistent` of `formula.ts`: some member occurs together
with its negation. -/
def isPatentlyInconsistent (fs : FormulaSet) : Bool :=
  fs.any (fun f =>
    match f with
    | .not s => fsHas fs s
    | _ => fsHas fs (Formula.not f))

/-- `isEventuality` of `formula.ts`: formulas of shape `¬C_A φ`. -/
def isEventuality : Formula → Bool
  | .not (.C _ _) => true
  | _ => false

/-- `isDiamond` of `formula.ts`: formulas of shape `¬D_A φ`. -/
def isDiamond : Formula → Bool
  | .not (.D _ _) => true
  | _ => false

/-- `isBox` of `formula.ts`: formulas of shape `D_A φ`. -/
def isBox : Formula → Bool
  | .D _ _ => true
  | _ => false

/-- `subformulas` of `formula.ts`: DFS collection into a `FormulaSet`,
skipping formulas whose key is already present. -/
def subCollect : Formula → FormulaSet → FormulaSet
  | g, acc =>
    if fsHas acc g then acc
    else
      let acc1 := acc ++ [g]
      match g with
      | .atom _ => acc1
      | .not s => subCollect s acc1
      | .and l r => subCollect r (subCollect l acc1)
      | .D _ s => subCollect s acc1
      | .C _ s => subCollect s acc1

/-- `subformulas` of `formula.ts`. -/
def subformulas (f : Formula) : FormulaSet := subCollect f []

/-- `normalizeCoalition` keeps a singleton untouched, so the `D([a], …)`
calls of the classifier never hit the empty-coalition error path. -/
theorem normalizeCoalition_singleton (a : Agent) :
    normalizeCoalition [a] = [a] := rfl

/-- `isFullyExpanded` of `expansion.ts`: consistent, α-saturated and
β-witnessed. -/
def isFullyExpanded (fs : FormulaSet) : Bool :=
  !isPatentlyInconsistent fs &&
    fs.all (fun f =>
      match classifyFormula f with
      | .alpha cs => cs.all (fun c => fsHas fs c)
      | .beta cs => cs.any (fun c => fsHas fs c)
      | .elementary => true)

/-- `orderedFormulas` of `expansion.ts`: eventualities that come from the
original input Γ first, then the rest, both in insertion order. -/
def orderedFormulas (phi originalGamma : FormulaSet) : List Formula :=
  phi.filter (fun f => isEventuality f && fsHas originalGamma f) ++
    phi.filter (fun f => !(isEventuality f && fsHas originalGamma f))

/-- `tryAlphaRule` of `expansion.ts`: the first α-formula with missing
components yields the set extended with them. -/
def tryAlphaRule (phi originalGamma : FormulaSet) : Option FormulaSet :=
  (orderedFormulas phi originalGamma).findSome? (fun f =>
    match classifyFormula f with
    | .alpha cs =>
      let missing := cs.filter (fun c => !fsHas phi c)
      if missing.isEmpty then none else some (missing.foldl fsAdd phi)
    | _ => none)

/-- `tryBetaRule` of `expansion.ts`: the first β-formula none of whose
components is present yields one branch per component. -/
def tryBetaRule (phi originalGamma : FormulaSet) : Option (List FormulaSet) :=
  (orderedFormulas phi originalGamma).findSome? (fun f =>
    match classifyFormula f with
    | .beta cs =>
      if cs.any (fun c => fsHas phi c) then none
      else some (cs.map (fun c => fsAdd phi c))
    | _ => none)

/-- One `¬C_A ψ` candidate of `tryRule3`: fires when `¬ψ` is absent, some
other β-component is present, and the `(set key, formula key)` pair is
fresh; firing returns the additional set and the recorded pair key. -/
def rule3Step (phi : FormulaSet) (r3 : List String) (f : Formula) :
    Option (FormulaSet × String) :=
  match f with
  | .not (.C co s) =>
    match classifyFormula (.not (.C co s)) with
    | .beta cs =>
      let negPsi := Formula.not s
      if fsHas phi negPsi then none
      else
        let key := fsKey phi ++ "|" ++ formulaKey (Formula.not (Formula.C co s))
        if r3.contains key then none
        else
          let otherComponents := cs.filter (fun c => !formulaEqual c negPsi)
          if otherComponents.any (fun c => fsHas phi c) then
            some (fsAdd phi negPsi, key)
          else none
    | _ => none
  | _ => none

/-- The iteration of `tryRule3` over the members of `Φ`, threading the
`rule3Applied` set. -/
def rule3Aux (phi : FormulaSet) (r3 : List String) :
    List Formula → (List FormulaSet × List String)
  | [] => ([], r3)
  | f :: rest =>
    match rule3Step phi r3 f with
    | some (extra, key) =>
      let res := rule3Aux phi (key :: r3) rest
      (extra :: res.1, res.2)
    | none => rule3Aux phi r3 rest

/-- `tryRule3` of `expansion.ts`: returns the additional sets and the
updated `rule3Applied` set. -/
def tryRule3 (phi : FormulaSet) (r3 : List String) :
    (List FormulaSet × List String) :=
  rule3Aux phi r3 phi

/-- Scan of `checkC1` over `Δ` for a licensing `¬D_E ε` member. -/
def c1Scan (delta : FormulaSet) (A B : Coalition) (isDShape isNegCShape : Bool) :
    Bool :=
  delta.any (fun f =>
    match f with
    | .not (.D E _) =>
      (isDShape && coalitionSubset A E && coalitionSubset B E) ||
        (isNegCShape && coalitionSubset A E && coalitionIntersects B E)
    | _ => false)

/-- `checkC1` of `expansion.ts`: side condition for cutting on `D_A φ`
inside the ambient formula `ψ`. -/
def checkC1 (psi dAFormula : Formula) (delta : FormulaSet) : Bool :=
  match dAFormula with
  | .D A _ =>
    match psi with
    | .D B _ => c1Scan delta A B true false
    | .not (.D B _) => c1Scan delta A B true false
    | .not (.C B _) => c1Scan delta A B false true
    | _ => false
  | _ => false

/-- Scan of `checkC2` over `Δ` for a licensing `¬D_E ε` member. -/
def c2Scan (delta : FormulaSet) (A B : Coalition) (isDShape isNegCShape : Bool) :
    Bool :=
  delta.any (fun f =>
    match f with
    | .not (.D E _) =>
      (isDShape && coalitionSubset B E && coalitionIntersects A E) ||
        (isNegCShape && coalitionIntersects A E && coalitionIntersects B E)
    | _ => false)

/-- `checkC2` of `expansion.ts`: side condition for cutting on `C_A φ`
inside the ambient formula `ψ`. -/
def checkC2 (psi cAFormula : Formula) (delta : FormulaSet) : Bool :=
  match cAFormula with
  | .C A _ =>
    match psi with
    | .D B _ => c2Scan delta A B true false
    | .not (.D B _) => c2Scan delta A B true false
    | .not (.C B _) => c2Scan delta A B false true
    | _ => false
  | _ => false

/-- One candidate subformula of the cut rule: cut on a `D`- or `C`-shaped
subformula of `ψ` when neither it nor its negation is present and the
side condition (if restricted) holds. -/
def cutAtSub (phi : FormulaSet) (useRestrictedCuts : Bool) (psi sub : Formula) :
    Option (List FormulaSet) :=
  match sub with
  | .D _ _ =>
    if !fsHas phi sub && !fsHas phi (.not sub) &&
        (!useRestrictedCuts || checkC1 psi sub phi) then
      some [fsAdd phi sub, fsAdd phi (.not sub)]
    else none
  | .C _ _ =>
    if !fsHas phi sub && !fsHas phi (.not sub) &&
        (!useRestrictedCuts || checkC2 psi sub phi) then
      some [fsAdd phi sub, fsAdd phi (.not sub)]
    else none
  | _ => none

/-- `tryCutRule` of `expansion.ts`: first member `ψ`, first eligible
subformula. -/
def tryCutRule (phi : FormulaSet) (useRestrictedCuts : Bool) :
    Option (List FormulaSet) :=
  phi.findSome? (fun psi =>
    (subformulas psi).findSome? (fun sub => cutAtSub phi useRestrictedCuts psi sub))

/-- Key-based deduplication scan of `deduplicateSets`. -/
def dedupAux (seen : List String) : List FormulaSet → List FormulaSet
  | [] => []
  | s :: rest =>
    let k := fsKey s
    if seen.contains k then dedupAux seen rest
    else s :: dedupAux (k :: seen) rest

/-- `deduplicateSets` of `expansion.ts`: keep the first set of each
canonical key. -/
def deduplicateSets (sets : List FormulaSet) : List FormulaSet :=
  dedupAux [] sets

/-- Processing of a single family member inside one pass of `expandCore`:
α first, then β, then rule 3, then (optionally) cuts.  Returns the sets
pushed to the next family, the extra sets produced by rule 3, the updated
`rule3Applied` set, and whether this member reported a change. -/
def processSet (gamma : FormulaSet) (enableCuts useRestrictedCuts : Bool)
    (phi : FormulaSet) (r3 : List String) :
    (List FormulaSet × List FormulaSet × List String × Bool) :=
  match tryAlphaRule phi gamma with
  | some a =>
    ((if isPatentlyInconsistent a then [] else [a]), [], r3, true)
  | none =>
  match tryBetaRule phi gamma with
  | some bs =>
    (bs.filter (fun s => !isPatentlyInconsistent s), [], r3, true)
  | none =>
    let res := tryRule3 phi r3
    if res.1.isEmpty then
      if enableCuts then
        match tryCutRule phi useRestrictedCuts with
        | some bs =>
          (bs.filter (fun s => !isPatentlyInconsistent s), [], r3, true)
        | none => ([phi], [], r3, false)
      else ([phi], [], r3, false)
    else
      ([phi], res.1.filter (fun s => !isPatentlyInconsistent s), res.2, true)

/-- One full pass of the `while (changed)` loop of `expandCore` over the
family, threading the `rule3Applied` set across members. -/
def passAux (gamma : FormulaSet) (enableCuts useRestrictedCuts : Bool) :
    List FormulaSet → List String →
    (List FormulaSet × List FormulaSet × List String × Bool)
  | [], r3 => ([], [], r3, false)
  | phi :: rest, r3 =>
    let h := processSet gamma enableCuts useRestrictedCuts phi r3
    let t := passAux gamma enableCuts useRestrictedCuts rest h.2.2.1
    (h.1 ++ t.1, h.2.1 ++ t.2.1, t.2.2.1, h.2.2.2 || t.2.2.2)

/-- The fuelled `while (changed)` loop of `expandCore`: run one pass,
append the rule-3 extras, deduplicate, and stop when the pass reported no
change. -/
def expandLoop (gamma : FormulaSet) (enableCuts useRestrictedCuts : Bool) :
    Nat → List FormulaSet → List String → Option (List FormulaSet)
  | 0, _, _ => none
  | fuel + 1, family, r3 =>
    let p := passAux gamma enableCuts useRestrictedCuts family r3
    let family' := deduplicateSets (p.1 ++ p.2.1)
    if p.2.2.2 then expandLoop gamma enableCuts useRestrictedCuts fuel family' p.2.2.1
    else some family'

/-- First-occurrence deduplication of strings relative to a `seen` list
(the semantics of inserting into a JavaScript `Set`). -/
def dedupStrAux (seen : List String) : List String → List String
  | [] => []
  | x :: xs =>
    if seen.contains x then dedupStrAux seen xs
    else x :: dedupStrAux (x :: seen) xs

/-- First-occurrence deduplication of a string list. -/
def dedupStrings (l : List String) : List String := dedupStrAux [] l

/-- The list of structural subterms of a formula (duplicates allowed;
used to build the finite universe that bounds the expansion engine). -/
def subList : Formula → List Formula
  | .atom n => [.atom n]
  | .not s => .not s :: subList s
  | .and l r => .and l r :: (subList l ++ subList r)
  | .D co s => .D co s :: subList s
  | .C co s => .C co s :: subList s

/-- All structural subterms of the members of a set. -/
def baseXL (gamma : FormulaSet) : List Formula :=
  gamma.foldr (fun f acc => subList f ++ acc) []

/-- The `D_a C_A ψ` formulas the classifier generates from the `C_A ψ`
members of `X`. -/
def cAugL (X : List Formula) : List Formula :=
  X.foldr
    (fun g acc =>
      match g with
      | .C co s => co.map (fun a => Formula.D [a] (Formula.C co s)) ++ acc
      | _ => acc)
    []

/-- A finite universe (as a list, possibly with duplicates) containing
the input set and closed under all formulas any expansion rule can add. -/
def univList (gamma : FormulaSet) : List Formula :=
  (baseXL gamma ++ cAugL (baseXL gamma)) ++
    (baseXL gamma ++ cAugL (baseXL gamma)).map Formula.not

/-- The deduplicated keys of the universe. -/
def uKeysList (gamma : FormulaSet) : List String :=
  dedupStrings ((univList gamma).map formulaKey)

/-- Largest component-list length over the universe. -/
def maxCompLen (gamma : FormulaSet) : Nat :=
  ((univList gamma).map (fun g => (componentsOf g).length)).foldr max 0

/-- Branching base of the termination measure. -/
def bBase (gamma : FormulaSet) : Nat := maxCompLen gamma + 2

/-- Weight of a single family member: exponential in the number of
universe keys it is still missing (the member count is its key count for
the sets the engine manipulates, whose keys are pairwise distinct). -/
def setWeight (gamma : FormulaSet) (phi : FormulaSet) : Nat :=
  (bBase gamma + 1) ^ ((uKeysList gamma).length - phi.length)

/-- Total weight of a family. -/
def famWeight (gamma : FormulaSet) (fam : List FormulaSet) : Nat :=
  (fam.map (setWeight gamma)).sum

/-- Canonical set key of a list of member keys (the value `fsKey` takes
on any set whose member keys sort to the same list). -/
def listSetKey (S : List String) : String :=
  "\x7b" ++ joinComma (sortKeys S) ++ "\x7d"

/-- Universe of the `(set key, formula key)` strings rule 3 can record:
one entry per sublist of the universe keys and universe key. -/
def pairList (gamma : FormulaSet) : List String :=
  (uKeysList gamma).sublists.foldr
    (fun S acc => (uKeysList gamma).map (fun k => listSetKey S ++ "|" ++ k) ++ acc)
    []

/-- Compensation constant for a rule-3 firing: strictly more than any
single set's weight. -/
def bigC (gamma : FormulaSet) : Nat :=
  (bBase gamma + 1) ^ (uKeysList gamma).length + 1

/-- Termination measure of the expansion loop's state. -/
def expMeasure (gamma : FormulaSet) (family : List FormulaSet)
    (r3 : List String) : Nat :=
  bigC gamma * ((pairList gamma).length - r3.length) + famWeight gamma family

/-- Fuel sufficient for `expandLoop` to reach its fixpoint: a cheap
arithmetic bound on `expMeasure gamma [gamma] []` (the pair list has
`2 ^ n * n` entries for `n` universe keys). -/
def expansionFuel (gamma : FormulaSet) : Nat :=
  bigC gamma * (2 ^ (uKeysList gamma).length * (uKeysList gamma).length) +
    (bBase gamma + 1) ^ (uKeysList gamma).length + 1

/-- `expandCore` of `expansion.ts`: empty family on a patently
inconsistent input, otherwise the pass-until-no-change loop (run with
provably sufficient fuel; the `getD` default is dead code once
termination is established). -/
def expandCore (gamma : FormulaSet) (enableCuts useRestrictedCuts : Bool) :
    List FormulaSet :=
  if isPatentlyInconsistent gamma then []
  else
    (expandLoop gamma enableCuts useRestrictedCuts (expansionFuel gamma)
      [gamma] []).getD []

/-- `fullExpansion` of `expansion.ts`. -/
def fullExpansion (gamma : FormulaSet) : List FormulaSet :=
  expandCore gamma false true

/-- `cutSaturatedExpansion` of `expansion.ts` (default
`useRestrictedCuts = true` in the source). -/
def cutSaturatedExpansion (gamma : FormulaSet) (useRestrictedCuts : Bool) :
    List FormulaSet :=
  expandCore gamma true useRestrictedCuts

/-- Node identifiers are strings such as `"s3"`, `"p5"`. -/
abbrev NodeId := String

/-- A solid edge of `types.ts` (state → prestate in the pretableau,
state → state afterwards), labelled by the triggering `¬D_A φ`. -/
structure SolidEdge where
  fromId : NodeId
  toId : NodeId
  label : Formula
deriving DecidableEq, Repr

/-- The pretableau of `types.ts`; the maps become insertion-ordered
association lists. -/
structure Pretableau where
  prestates : List (NodeId × FormulaSet)
  states : List (NodeId × FormulaSet)
  dashedEdges : List (NodeId × NodeId)
  solidEdges : List SolidEdge
deriving DecidableEq, Repr

/-- A tableau of `types.ts`. -/
structure Tableau where
  states : List (NodeId × FormulaSet)
  edges : List SolidEdge
deriving DecidableEq, Repr

/-- An elimination record of the state-elimination phase. -/
structure EliminationRecord where
  stateId : NodeId
  rule : String
  formula : Formula
  stateFormulas : FormulaSet
deriving DecidableEq, Repr

/-- The result record of `runTableau`. -/
structure TableauResult where
  satisfiable : Bool
  pretableau : Pretableau
  initialTableau : Tableau
  finalTableau : Tableau
  inputFormula : Formula
  eliminations : List EliminationRecord
deriving DecidableEq, Repr

/-- The mutable context of the construction phase: the pretableau under
construction, the two key → id indices, and the node counter. -/
structure ConstructionState where
  pret : Pretableau
  prestateIndex : List (String × NodeId)
  stateIndex : List (String × NodeId)
  counter : Nat
deriving DecidableEq, Repr

/-- `freshNodeId` of `tableau.ts`. -/
def freshNodeId (pre : String) (counter : Nat) : NodeId :=
  pre ++ toString counter

/-- `addPrestate` of `tableau.ts`: reuse by canonical set key, else mint
a fresh prestate. -/
def addPrestate (cs : ConstructionState) (formulas : FormulaSet) :
    ConstructionState × NodeId :=
  let key := fsKey formulas
  match cs.prestateIndex.lookup key with
  | some pid => (cs, pid)
  | none =>
    let pid := freshNodeId "p" cs.counter
    ({ cs with
        pret := { cs.pret with prestates := cs.pret.prestates ++ [(pid, formulas)] }
        prestateIndex := cs.prestateIndex ++ [(key, pid)]
        counter := cs.counter + 1 },
      pid)

/-- The per-expansion body of `applySR`: reuse or mint the state, then
add the dashed edge; returns the ids of newly minted states. -/
def applySRAux (psId : NodeId) :
    ConstructionState → List FormulaSet → ConstructionState × List NodeId
  | cs, [] => (cs, [])
  | cs, exp :: rest =>
    let key := fsKey exp
    let minted :=
      match cs.stateIndex.lookup key with
      | some sid => (cs, sid, false)
      | none =>
        let sid := freshNodeId "s" cs.counter
        ({ cs with
            pret := { cs.pret with states := cs.pret.states ++ [(sid, exp)] }
            stateIndex := cs.stateIndex ++ [(key, sid)]
            counter := cs.counter + 1 },
          sid, true)
    let cs2 :=
      { minted.1 with
        pret :=
          { minted.1.pret with
            dashedEdges := minted.1.pret.dashedEdges ++ [(psId, minted.2.1)] } }
    let res := applySRAux psId cs2 rest
    (res.1, (if minted.2.2 then [minted.2.1] else []) ++ res.2)

/-- Rule `(SR)` of `tableau.ts`: expand a prestate into its cut-saturated
expansions. -/
def applySR (cs : ConstructionState) (prestate : NodeId × FormulaSet)
    (useRestrictedCuts : Bool) : ConstructionState × List NodeId :=
  applySRAux prestate.1 cs (cutSaturatedExpansion prestate.2 useRestrictedCuts)

/-- The target set rule `(DR)` builds from state `Δ` and diamond
`χ = ¬D_A φ`: `{¬φ}` plus the retained `D`, `¬D` and `¬C` members. -/
def drKeep (A : Coalition) (chi : Formula) (f : Formula) : Bool :=
  match f with
  | .D co _ => coalitionSubset co A
  | .not (.D co _) => coalitionSubset co A && !formulaEqual f chi
  | .not (.C co _) => coalitionIntersects co A
  | _ => false

/-- The prestate content built by rule `(DR)`. -/
def drTarget (delta : FormulaSet) (chi : Formula) (A : Coalition)
    (phi : Formula) : FormulaSet :=
  delta.foldl (fun acc f => if drKeep A chi f then fsAdd acc f else acc)
    (fsAdd [] (Formula.not phi))

/-- Rule `(DR)` of `tableau.ts`: build the target prestate (reusing by
key) and add the labelled solid edge.  `none` models the thrown error on
a non-diamond formula and the failing map lookup. -/
def applyDR (cs : ConstructionState) (stateId : NodeId)
    (diamondFormula : Formula) : Option (ConstructionState × NodeId) :=
  match diamondFormula with
  | .not (.D A phi) =>
    match cs.pret.states.lookup stateId with
    | none => none
    | some delta =>
      let target := drTarget delta (Formula.not (Formula.D A phi)) A phi
      let added := addPrestate cs target
      some
        ({ added.1 with
            pret :=
              { added.1.pret with
                solidEdges :=
                  added.1.pret.solidEdges ++
                    [{ fromId := stateId, toId := added.2,
                       label := Formula.not (Formula.D A phi) }] } },
          added.2)
  | _ => none

/-- The `(SR)` sweep over the pending prestates of one construction-loop
iteration. -/
def srBlock (useRestrictedCuts : Bool) :
    ConstructionState → List NodeId → ConstructionState × List NodeId
  | cs, [] => (cs, [])
  | cs, psId :: rest =>
    match cs.pret.prestates.lookup psId with
    | none => srBlock useRestrictedCuts cs rest
    | some fs =>
      let r1 := applySR cs (psId, fs) useRestrictedCuts
      let r2 := srBlock useRestrictedCuts r1.1 rest
      (r2.1, r1.2 ++ r2.2)

/-- Membership test in a state list (the `Map.has` of the source). -/
def statesHas (states : List (NodeId × FormulaSet)) (id : NodeId) : Bool :=
  states.any (fun p => p.1 == id)

/-- The pending `(DR)` applications gathered from the newly created
states: each unprocessed diamond of each new state. -/
def drCandidates (cs : ConstructionState) (newStates : List NodeId) :
    List (NodeId × Formula) :=
  newStates.foldr
    (fun stId acc =>
      match cs.pret.states.lookup stId with
      | none => acc
      | some st =>
        (st.filter (fun f =>
            isDiamond f &&
              !cs.pret.solidEdges.any (fun e =>
                e.fromId == stId && formulaEqual e.label f))).map
            (fun f => (stId, f)) ++ acc)
    []

/-- The `(DR)` sweep over the pending state–diamond pairs. -/
def drBlock :
    ConstructionState → List (NodeId × Formula) → ConstructionState × List NodeId
  | cs, [] => (cs, [])
  | cs, (sid, f) :: rest =>
    match applyDR cs sid f with
    | some r1 =>
      let r2 := drBlock r1.1 rest
      (r2.1, r1.2 :: r2.2)
    | none => drBlock cs rest

/-- The fuelled alternation of `(SR)` and `(DR)` of `constructionPhase`. -/
def constructLoop (useRestrictedCuts : Bool) :
    Nat → ConstructionState → List NodeId → Option ConstructionState
  | 0, _, _ => none
  | fuel + 1, cs, pending =>
    if pending.isEmpty then some cs
    else
      let sr := srBlock useRestrictedCuts cs pending
      let toDR := drCandidates sr.1 sr.2
      let dr := drBlock sr.1 toDR
      constructLoop useRestrictedCuts fuel dr.1 dr.2

/-- Phase 1 of `tableau.ts`: build the pretableau from the seed prestate
`{θ}`. -/
def constructionPhase (theta : Formula) (useRestrictedCuts : Bool)
    (fuel : Nat) : Option Pretableau :=
  let cs0 : ConstructionState :=
    { pret := { prestates := [], states := [], dashedEdges := [], solidEdges := [] }
      prestateIndex := [], stateIndex := [], counter := 0 }
  let seeded := addPrestate cs0 (fsOfList [theta])
  (constructLoop useRestrictedCuts fuel seeded.1 [seeded.2]).map (fun cs => cs.pret)

/-- Phase 2 of `tableau.ts` (rule `PR`): replace every solid edge into a
prestate by edges to the states that prestate expands to. -/
def prestateEliminationPhase (pt : Pretableau) : Tableau :=
  { states := pt.states
    edges :=
      pt.solidEdges.foldr
        (fun e acc =>
          (dedupStrings
              ((pt.dashedEdges.filter (fun d => d.1 == e.toId)).map (fun d => d.2))).map
              (fun sid => { fromId := e.fromId, toId := sid, label := e.label }) ++
            acc)
        [] }

/-- The candidates rule `(E1)` collects in one sweep: for each state its
first diamond with no surviving successor edge. -/
def e1Candidates (states : List (NodeId × FormulaSet)) (edges : List SolidEdge) :
    List (NodeId × Formula) :=
  states.foldr
    (fun p acc =>
      match p.2.find? (fun f =>
          isDiamond f &&
            !edges.any (fun e =>
              e.fromId == p.1 && formulaEqual e.label f && statesHas states e.toId)) with
      | some f => (p.1, f) :: acc
      | none => acc)
    []

/-- Rule `(E1)` applied to fixpoint (fuelled). -/
def applyE1UntilFixpoint :
    Nat → List (NodeId × FormulaSet) → List SolidEdge →
    Option (List (NodeId × FormulaSet) × List EliminationRecord)
  | 0, _, _ => none
  | fuel + 1, states, edges =>
    let cands := e1Candidates states edges
    if cands.isEmpty then some (states, [])
    else
      let records := cands.map (fun c =>
        { stateId := c.1, rule := "E1", formula := c.2,
          stateFormulas := ((states.lookup c.1).getD []) : EliminationRecord })
      let states' := states.filter (fun p => !cands.any (fun c => c.1 == p.1))
      (applyE1UntilFixpoint fuel states' edges).map
        (fun r => (r.1, records ++ r.2))

/-- One sequential pass of the `(E2)` marking fixpoint over the states
containing the eventuality. -/
def markPass (states : List (NodeId × FormulaSet)) (edges : List SolidEdge)
    (A : Coalition) :
    List NodeId → List NodeId → (List NodeId × Bool)
  | marked, [] => (marked, false)
  | marked, id :: rest =>
    if marked.contains id then markPass states edges A marked rest
    else if !statesHas states id then markPass states edges A marked rest
    else if edges.any (fun e =>
        e.fromId == id && statesHas states e.toId && marked.contains e.toId &&
          (match e.label with
           | .not (.D B _) => coalitionIntersects B A
           | _ => false)) then
      let res := markPass states edges A (id :: marked) rest
      (res.1, true)
    else markPass states edges A marked rest

/-- The `(E2)` marking loop run to fixpoint (fuelled). -/
def markLoop (states : List (NodeId × FormulaSet)) (edges : List SolidEdge)
    (A : Coalition) (withEv : List NodeId) :
    Nat → List NodeId → Option (List NodeId)
  | 0, _ => none
  | fuel + 1, marked =>
    let p := markPass states edges A marked withEv
    if p.2 then markLoop states edges A withEv fuel p.1 else some p.1

/-- Rule `(E2)` of `tableau.ts` for one eventuality `¬C_A φ`: mark the
states containing `¬φ`, propagate along admissible edges, eliminate the
unmarked states containing the eventuality. -/
def applyE2 (fuel : Nat) (states : List (NodeId × FormulaSet))
    (edges : List SolidEdge) (eventuality : Formula) :
    Option (List (NodeId × FormulaSet) × List EliminationRecord) :=
  match eventuality with
  | .not (.C A phi) =>
    let ev := Formula.not (Formula.C A phi)
    let negPhi := Formula.not phi
    let withEv := (states.filter (fun p => fsHas p.2 ev)).map (fun p => p.1)
    if withEv.isEmpty then some (states, [])
    else
      let marked0 := (states.filter (fun p => fsHas p.2 negPhi)).map (fun p => p.1)
      (markLoop states edges A withEv fuel marked0).map (fun marked =>
        let rem := withEv.filter (fun id => !marked.contains id && statesHas states id)
        let records := rem.map (fun id =>
          { stateId := id, rule := "E2", formula := ev,
            stateFormulas := ((states.lookup id).getD []) : EliminationRecord })
        (states.filter (fun p => !rem.contains p.1), records))
  | _ => none

/-- The distinct eventualities appearing in any state, in first-seen
order. -/
def collectAllEventualities (states : List (NodeId × FormulaSet)) :
    List Formula :=
  states.foldl
    (fun acc p =>
      p.2.foldl
        (fun acc f =>
          if isEventuality f && !acc.any (fun g => formulaKey g == formulaKey f) then
            acc ++ [f]
          else acc)
        acc)
    []

/-- Drop the edges whose endpoints were removed. -/
def pruneEdges (states : List (NodeId × FormulaSet)) (edges : List SolidEdge) :
    List SolidEdge :=
  edges.filter (fun e => statesHas states e.fromId && statesHas states e.toId)

/-- The body of the dovetailed cycle: `(E2)` for each eventuality in
order, each followed by `(E1)` to fixpoint. -/
def evPass (fuel : Nat) :
    List Formula → List (NodeId × FormulaSet) → List SolidEdge →
    List EliminationRecord → Bool →
    Option (List (NodeId × FormulaSet) × List SolidEdge × List EliminationRecord × Bool)
  | [], states, edges, recs, removed => some (states, edges, recs, removed)
  | ev :: rest, states, edges, recs, removed =>
    match applyE2 fuel states edges ev with
    | none => none
    | some r2 =>
      let statesA := r2.1
      let edgesA := if r2.2.isEmpty then edges else pruneEdges statesA edges
      match applyE1UntilFixpoint fuel statesA edgesA with
      | none => none
      | some r1 =>
        let statesB := r1.1
        let edgesB := if r1.2.isEmpty then edgesA else pruneEdges statesB edgesA
        evPass fuel rest statesB edgesB (recs ++ r2.2 ++ r1.2)
          (removed || !r2.2.isEmpty || !r1.2.isEmpty)

/-- The outer `while (removedInCycle)` loop of the state-elimination
phase (fuelled). -/
def dovetailLoop (evs : List Formula) :
    Nat → List (NodeId × FormulaSet) → List SolidEdge → List EliminationRecord →
    Option (List (NodeId × FormulaSet) × List SolidEdge × List EliminationRecord)
  | 0, _, _, _ => none
  | fuel + 1, states, edges, recs =>
    match evPass fuel evs states edges recs false with
    | none => none
    | some r =>
      if r.2.2.2 then dovetailLoop evs fuel r.1 r.2.1 r.2.2.1
      else some (r.1, r.2.1, r.2.2.1)

/-- Phase 3 of `tableau.ts`: dovetailed `(E1)`/`(E2)` elimination. -/
def stateEliminationPhase (fuel : Nat) (initialTableau : Tableau) :
    Option (Tableau × List EliminationRecord) :=
  let states0 := initialTableau.states
  let edges0 := initialTableau.edges
  let evs := collectAllEventualities states0
  if evs.isEmpty then
    (applyE1UntilFixpoint fuel states0 edges0).map (fun r =>
      ({ states := r.1, edges := pruneEdges r.1 edges0 }, r.2))
  else
    (dovetailLoop evs fuel states0 edges0 []).map (fun r =>
      ({ states := r.1, edges := pruneEdges r.1 r.2.1 }, r.2.2))

/-- `runTableau` of `tableau.ts`, with the ambient value of the global
node counter made explicit (the function begins with
`resetNodeCounter()`, so the construction starts from counter `0`).
Returns the result together with the list of strings passed to the
`onProgress` observer, in order. -/
def runTableauFrom (_ambientCounter : Nat) (theta : Formula)
    (useRestrictedCuts : Bool) (fuel : Nat) :
    Option (TableauResult × List String) :=
  match constructionPhase theta useRestrictedCuts fuel with
  | none => none
  | some pretableau =>
    let initialTableau := prestateEliminationPhase pretableau
    match stateEliminationPhase fuel initialTableau with
    | none => none
    | some fin =>
      let satisfiable := fin.1.states.any (fun p => fsHas p.2 theta)
      some
        ({ satisfiable := satisfiable, pretableau := pretableau,
           initialTableau := initialTableau, finalTableau := fin.1,
           inputFormula := theta, eliminations := fin.2 },
          ["Phase 1: Construction", "Phase 2: Prestate Elimination",
            "Phase 3: State Elimination", "Checking Satisfiability"])

/-- `runTableau` with the ambient counter left abstract-but-irrelevant:
the observable entry point (default counter 0 stands for a fresh
process). -/
def runTableau (theta : Formula) (useRestrictedCuts : Bool) (fuel : Nat) :
    Option (TableauResult × List String) :=
  runTableauFrom 0 theta useRestrictedCuts fuel

/-!  ## Claim theorems  -/

/-- C4: for every coalition `A` (in canonical sorted, deduplicated form)
and formula `φ`, `classify (C_A φ)` is α with components exactly
`[φ, D_a C_A φ for a ∈ A in canonical order]`, and `classify (¬C_A φ)`
is β with components exactly `[¬φ, ¬D_a C_A φ for a ∈ A in canonical
order]`. -/
theorem classify_commonKnowledge (A : Coalition) (phi : Formula)
    (_hA : normalizeCoalition A = A) :
    classifyFormula (Formula.C A phi) =
      Classification.alpha
        (phi :: A.map (fun a => Formula.D [a] (Formula.C A phi))) ∧
    classifyFormula (Formula.not (Formula.C A phi)) =
      Classification.beta
        (Formula.not phi ::
          A.map (fun a => Formula.not (Formula.D [a] (Formula.C A phi)))) := by
  constructor
  · show Classification.alpha (phi :: A.map (fun a => mkD [a] (Formula.C A phi))) = _
    simp only [mkD, normalizeCoalition_singleton]
  · show Classification.beta
      (Formula.not phi ::
        A.map (fun a => Formula.not (mkD [a] (Formula.C A phi)))) = _
    simp only [mkD, normalizeCoalition_singleton]

/-- Witness for `classify_commonKnowledge` at `A = [a, b]`, `φ = p`. -/
theorem classify_commonKnowledge_witness :
    normalizeCoalition ["a", "b"] = ["a", "b"] ∧
    classifyFormula (Formula.C ["a", "b"] (Formula.atom "p")) =
      Classification.alpha
        [Formula.atom "p",
          Formula.D ["a"] (Formula.C ["a", "b"] (Formula.atom "p")),
          Formula.D ["b"] (Formula.C ["a", "b"] (Formula.atom "p"))] :=
  ⟨by decide,
    by
      have h := (classify_commonKnowledge ["a", "b"] (Formula.atom "p")
        (by decide)).1
      simpa using h⟩

/-- C5 (second half): on a patently inconsistent input the expansion
engine returns the empty family, for every option combination. -/
theorem expandCore_inconsistent (gamma : FormulaSet)
    (enableCuts useRestrictedCuts : Bool)
    (h : isPatentlyInconsistent gamma = true) :
    expandCore gamma enableCuts useRestrictedCuts = [] := by
  simp [expandCore, h]

/-- Witness for `expandCore_inconsistent` at `Γ = {p, ¬p}`. -/
theorem expandCore_inconsistent_witness :
    isPatentlyInconsistent [Formula.atom "p", Formula.not (Formula.atom "p")] = true ∧
    expandCore [Formula.atom "p", Formula.not (Formula.atom "p")] true true = [] :=
  ⟨by decide,
    expandCore_inconsistent [Formula.atom "p", Formula.not (Formula.atom "p")]
      true true (by decide)⟩

/-- C9: the decision procedure is deterministic and pure: whatever the
ambient value of the global node counter (which `runTableau` resets on
entry), two calls on the same formula and flag return structurally
identical results — same verdict, same graphs and node ids, same edges,
same elimination trace, same observer log. -/
theorem runTableau_deterministic (theta : Formula) (useRestrictedCuts : Bool)
    (fuel : Nat) (c c' : Nat) :
    runTableauFrom c theta useRestrictedCuts fuel =
      runTableauFrom c' theta useRestrictedCuts fuel := rfl

/-- C7 (amended): every completed run invokes the `onProgress` observer
with exactly the four stage strings `"Phase 1: Construction"`,
`"Phase 2: Prestate Elimination"`, `"Phase 3: State Elimination"`,
`"Checking Satisfiability"`, in this order. -/
theorem runTableau_progress_tags (c : Nat) (theta : Formula) (rc : Bool)
    (fuel : Nat) (pr : TableauResult × List String)
    (h : runTableauFrom c theta rc fuel = some pr) :
    pr.2 = ["Phase 1: Construction", "Phase 2: Prestate Elimination",
      "Phase 3: State Elimination", "Checking Satisfiability"] := by
  revert h
  unfold runTableauFrom
  cases constructionPhase theta rc fuel with
  | none => intro h; cases h
  | some pt =>
    try dsimp only
    cases stateEliminationPhase fuel (prestateEliminationPhase pt) with
    | none => intro h; cases h
    | some fin => intro h; cases h; rfl

/-- Witness for `runTableau_progress_tags`: the run on the atom `p`
completes and its observer log is the four phase strings. -/
theorem runTableau_progress_tags_witness :
    (runTableau (Formula.atom "p") true 20).isSome = true ∧
    (runTableau (Formula.atom "p") true 20).map Prod.snd =
      some ["Phase 1: Construction", "Phase 2: Prestate Elimination",
        "Phase 3: State Elimination", "Checking Satisfiability"] := by
  refine ⟨by decide, ?_⟩
  cases hr : runTableau (Formula.atom "p") true 20 with
  | none => exact absurd hr (by decide)
  | some pr =>
    rw [Option.map_some']
    exact congrArg some (runTableau_progress_tags 0 (Formula.atom "p") true 20 pr hr)

/-- C7 (counterexample to the claim as stated): the completed run on `p`
passes the observer the string `"Phase 1: Construction"`, which is none
of the four tags `"construction"`, `"prestate-elim"`, `"state-elim"`,
`"verdict"` the claim names. -/
theorem runTableau_progress_tags_spec_false :
    ((runTableau (Formula.atom "p") true 20).map Prod.snd).getD [] =
      ["Phase 1: Construction", "Phase 2: Prestate Elimination",
        "Phase 3: State Elimination", "Checking Satisfiability"] ∧
    ¬ ("Phase 1: Construction" ∈
        (["construction", "prestate-elim", "state-elim", "verdict"] :
          List String)) := by
  constructor
  · decide
  · decide

/-!  ## Basic facts about `FormulaSet` operations  -/

theorem fsHas_append_left (s t : FormulaSet) (g : Formula)
    (h : fsHas s g = true) : fsHas (s ++ t) g = true := by
  unfold fsHas at *
  rw [List.any_append, h, Bool.true_or]

theorem fsHas_fsAdd (s : FormulaSet) (f g : Formula)
    (h : fsHas s g = true) : fsHas (fsAdd s f) g = true := by
  unfold fsAdd
  split
  · exact h
  · exact fsHas_append_left s [f] g h

theorem fsHas_foldl_fsAdd (l : List Formula) :
    ∀ (s : FormulaSet) (g : Formula), fsHas s g = true →
      fsHas (l.foldl fsAdd s) g = true := by
  induction l with
  | nil => exact fun s g h => h
  | cons x l ih =>
    intro s g h
    rw [List.foldl_cons]
    exact ih (fsAdd s x) g (fsHas_fsAdd s x g h)

theorem fsHas_of_mem {s : FormulaSet} {g : Formula} (h : g ∈ s) :
    fsHas s g = true :=
  List.any_eq_true.mpr ⟨g, h, beq_self_eq_true (formulaKey g)⟩

theorem mem_dedupAux {l : List FormulaSet} :
    ∀ {seen : List String} {s : FormulaSet}, s ∈ dedupAux seen l → s ∈ l := by
  induction l with
  | nil => intro seen s h; cases h
  | cons x l ih =>
    intro seen s h
    unfold dedupAux at h
    by_cases hc : seen.contains (fsKey x) = true
    · simp only [hc, if_true] at h
      exact List.mem_cons_of_mem x (ih h)
    · simp only [hc, if_false] at h
      rcases List.mem_cons.mp h with h1 | h2
      · exact h1 ▸ List.mem_cons_self x l
      · exact List.mem_cons_of_mem x (ih h2)

theorem mem_deduplicateSets {l : List FormulaSet} {s : FormulaSet}
    (h : s ∈ deduplicateSets l) : s ∈ l :=
  mem_dedupAux h

/-- A set `Δ` extends `Φ` when every formula key present in `Φ` is
present in `Δ` (the `isSubsetOf` notion of the source). -/
def fsExtends (phi delta : FormulaSet) : Prop :=
  ∀ g : Formula, fsHas phi g = true → fsHas delta g = true

theorem fsExtends_refl (phi : FormulaSet) : fsExtends phi phi :=
  fun _ h => h

theorem fsExtends_fsAdd (phi : FormulaSet) (f : Formula) :
    fsExtends phi (fsAdd phi f) :=
  fun g h => fsHas_fsAdd phi f g h

theorem fsExtends_foldl (phi : FormulaSet) (l : List Formula) :
    fsExtends phi (l.foldl fsAdd phi) :=
  fun g h => fsHas_foldl_fsAdd l phi g h

/-!  ## Shapes of the rule outputs  -/

theorem tryAlphaRule_extends {phi gamma a : FormulaSet}
    (h : tryAlphaRule phi gamma = some a) : fsExtends phi a := by
  obtain ⟨f, _, hf⟩ := List.exists_of_findSome?_eq_some h
  revert hf
  cases classifyFormula f with
  | elementary => intro hf; cases hf
  | beta cs => intro hf; cases hf
  | alpha cs =>
    intro hf
    dsimp only at hf
    split at hf
    · cases hf
    · cases hf
      exact fsExtends_foldl phi _

theorem tryBetaRule_extends {phi gamma : FormulaSet} {bs : List FormulaSet}
    (h : tryBetaRule phi gamma = some bs) :
    ∀ d ∈ bs, fsExtends phi d := by
  obtain ⟨f, _, hf⟩ := List.exists_of_findSome?_eq_some h
  revert hf
  cases classifyFormula f with
  | elementary => intro hf; cases hf
  | alpha cs => intro hf; cases hf
  | beta cs =>
    intro hf
    dsimp only at hf
    split at hf
    · cases hf
    · cases hf
      intro d hd
      obtain ⟨c, _, rfl⟩ := List.mem_map.mp hd
      exact fsExtends_fsAdd phi c

theorem rule3Aux_extends {phi : FormulaSet} :
    ∀ {l : List Formula} {r3 : List String} {d : FormulaSet},
      d ∈ (rule3Aux phi r3 l).1 → fsExtends phi d := by
  intro l
  induction l with
  | nil => intro r3 d h; cases h
  | cons f l ih =>
    intro r3 d h
    unfold rule3Aux at h
    revert h
    cases hf : rule3Step phi r3 f with
    | none => intro h; exact ih h
    | some ek =>
      intro h
      rcases List.mem_cons.mp h with h1 | h2
      · subst h1
        revert hf
        unfold rule3Step
        cases f with
        | not s =>
          cases s with
          | C co s0 =>
            try dsimp only
            cases classifyFormula (Formula.not (Formula.C co s0)) with
            | elementary => intro hf; cases hf
            | alpha cs => intro hf; cases hf
            | beta cs =>
              try dsimp only
              intro hf
              split at hf
              · cases hf
              · split at hf
                · cases hf
                · split at hf
                  · cases hf
                    exact fsExtends_fsAdd phi _
                  · cases hf
          | atom n => intro hf; cases hf
          | not s0 => intro hf; cases hf
          | and l0 r0 => intro hf; cases hf
          | D co s0 => intro hf; cases hf
        | atom n => intro hf; cases hf
        | and l0 r0 => intro hf; cases hf
        | D co s0 => intro hf; cases hf
        | C co s0 => intro hf; cases hf
      · exact ih h2

theorem cutAtSub_shape {phi : FormulaSet} {rc : Bool} {psi sub : Formula}
    {bs : List FormulaSet} (h : cutAtSub phi rc psi sub = some bs) :
    bs = [fsAdd phi sub, fsAdd phi (Formula.not sub)] := by
  cases sub with
  | D co s0 =>
    simp only [cutAtSub] at h
    split at h
    · exact (Option.some.inj h).symm
    · cases h
  | C co s0 =>
    simp only [cutAtSub] at h
    split at h
    · exact (Option.some.inj h).symm
    · cases h
  | atom n => simp only [cutAtSub] at h; cases h
  | not s0 => simp only [cutAtSub] at h; cases h
  | and l0 r0 => simp only [cutAtSub] at h; cases h

theorem tryCutRule_extends {phi : FormulaSet} {rc : Bool}
    {bs : List FormulaSet} (h : tryCutRule phi rc = some bs) :
    ∀ d ∈ bs, fsExtends phi d := by
  obtain ⟨psi, _, hpsi⟩ := List.exists_of_findSome?_eq_some h
  obtain ⟨sub, _, hsub⟩ := List.exists_of_findSome?_eq_some hpsi
  have hbs := cutAtSub_shape hsub
  subst hbs
  intro d hd
  rcases List.mem_cons.mp hd with h1 | h2
  · exact h1 ▸ fsExtends_fsAdd phi _
  · rcases List.mem_cons.mp h2 with h3 | h4
    · exact h3 ▸ fsExtends_fsAdd phi _
    · cases h4

/-!  ## Invariants of the expansion loop  -/

theorem processSet_out (gamma : FormulaSet) (ec rc : Bool)
    (phi : FormulaSet) (r3 : List String) :
    ∀ d, (d ∈ (processSet gamma ec rc phi r3).1 ∨
        d ∈ (processSet gamma ec rc phi r3).2.1) →
      fsExtends phi d ∧ (isPatentlyInconsistent d = false ∨ d = phi) := by
  intro d hd
  revert hd
  unfold processSet
  cases ha : tryAlphaRule phi gamma with
  | some a =>
    try dsimp only
    split
    · rename_i hia
      intro hd
      rcases hd with h | h <;> cases h
    · rename_i hia
      intro hd
      rcases hd with h | h
      · rcases List.mem_singleton.mp h with rfl
        exact ⟨tryAlphaRule_extends ha, Or.inl (Bool.eq_false_iff.mpr hia)⟩
      · cases h
  | none =>
    cases hb : tryBetaRule phi gamma with
    | some bs =>
      try dsimp only
      intro hd
      rcases hd with h | h
      · obtain ⟨hmem, hcond⟩ := List.mem_filter.mp h
        exact ⟨tryBetaRule_extends hb d hmem,
          Or.inl (by simpa using hcond)⟩
      · cases h
    | none =>
      try dsimp only
      split
      · rename_i hempty
        cases ec with
        | true =>
          try dsimp only
          cases hc : tryCutRule phi rc with
          | some bs =>
            try dsimp only
            intro hd
            rcases hd with h | h
            · obtain ⟨hmem, hcond⟩ := List.mem_filter.mp h
              exact ⟨tryCutRule_extends hc d hmem,
                Or.inl (by simpa using hcond)⟩
            · cases h
          | none =>
            try dsimp only
            intro hd
            rcases hd with h | h
            · rcases List.mem_singleton.mp h with rfl
              exact ⟨fsExtends_refl d, Or.inr rfl⟩
            · cases h
        | false =>
          try dsimp only
          intro hd
          rcases hd with h | h
          · rcases List.mem_singleton.mp h with rfl
            exact ⟨fsExtends_refl d, Or.inr rfl⟩
          · cases h
      · rename_i hnempty
        intro hd
        rcases hd with h | h
        · rcases List.mem_singleton.mp h with rfl
          exact ⟨fsExtends_refl d, Or.inr rfl⟩
        · obtain ⟨hmem, hcond⟩ := List.mem_filter.mp h
          exact ⟨rule3Aux_extends hmem, Or.inl (by simpa using hcond)⟩

theorem processSet_false (gamma : FormulaSet) (ec rc : Bool)
    (phi : FormulaSet) (r3 : List String)
    (h : (processSet gamma ec rc phi r3).2.2.2 = false) :
    processSet gamma ec rc phi r3 = ([phi], [], r3, false) ∧
      tryAlphaRule phi gamma = none ∧ tryBetaRule phi gamma = none := by
  revert h
  unfold processSet
  cases ha : tryAlphaRule phi gamma with
  | some a => intro h; cases h
  | none =>
    cases hb : tryBetaRule phi gamma with
    | some bs => intro h; cases h
    | none =>
      try dsimp only
      split
      · cases ec with
        | true =>
          try dsimp only
          cases hc : tryCutRule phi rc with
          | some bs => intro h; cases h
          | none => intro _; exact ⟨rfl, rfl, rfl⟩
        | false => intro _; exact ⟨rfl, rfl, rfl⟩
      · intro h; cases h

theorem passAux_out (gamma : FormulaSet) (ec rc : Bool) :
    ∀ (L : List FormulaSet) (r3 : List String) (d : FormulaSet),
      (d ∈ (passAux gamma ec rc L r3).1 ∨
        d ∈ (passAux gamma ec rc L r3).2.1) →
      ∃ phi ∈ L, fsExtends phi d ∧
        (isPatentlyInconsistent d = false ∨ d = phi) := by
  intro L
  induction L with
  | nil =>
    intro r3 d hd
    rcases hd with h | h <;> cases h
  | cons phi rest ih =>
    intro r3 d hd
    simp only [passAux] at hd
    rcases hd with h | h <;> rw [List.mem_append] at h <;> rcases h with h | h
    · exact ⟨phi, List.mem_cons_self phi rest,
        processSet_out gamma ec rc phi r3 d (Or.inl h)⟩
    · obtain ⟨psi, hmem, hrest⟩ := ih _ d (Or.inl h)
      exact ⟨psi, List.mem_cons_of_mem phi hmem, hrest⟩
    · exact ⟨phi, List.mem_cons_self phi rest,
        processSet_out gamma ec rc phi r3 d (Or.inr h)⟩
    · obtain ⟨psi, hmem, hrest⟩ := ih _ d (Or.inr h)
      exact ⟨psi, List.mem_cons_of_mem phi hmem, hrest⟩

theorem passAux_false (gamma : FormulaSet) (ec rc : Bool) :
    ∀ (L : List FormulaSet) (r3 : List String),
      (passAux gamma ec rc L r3).2.2.2 = false →
      (passAux gamma ec rc L r3).1 = L ∧
        (passAux gamma ec rc L r3).2.1 = [] ∧
        (passAux gamma ec rc L r3).2.2.1 = r3 ∧
        ∀ phi ∈ L, tryAlphaRule phi gamma = none ∧ tryBetaRule phi gamma = none := by
  intro L
  induction L with
  | nil =>
    intro r3 _
    exact ⟨rfl, rfl, rfl, fun phi hphi => absurd hphi (List.not_mem_nil phi)⟩
  | cons phi rest ih =>
    intro r3 h
    simp only [passAux] at h ⊢
    obtain ⟨h1, h2⟩ := Bool.or_eq_false_iff.mp h
    obtain ⟨hps, hal, hbe⟩ := processSet_false gamma ec rc phi r3 h1
    rw [hps] at h2 ⊢
    dsimp only at h2 ⊢
    obtain ⟨g1, g2, g3, g4⟩ := ih r3 h2
    refine ⟨by rw [g1]; rfl, by rw [g2]; rfl, g3, ?_⟩
    intro psi hpsi
    rcases List.mem_cons.mp hpsi with rfl | hmem
    · exact ⟨hal, hbe⟩
    · exact g4 psi hmem

theorem mem_orderedFormulas {phi gamma : FormulaSet} {f : Formula}
    (h : f ∈ phi) : f ∈ orderedFormulas phi gamma := by
  unfold orderedFormulas
  by_cases hp : (isEventuality f && fsHas gamma f) = true
  · exact List.mem_append.mpr (Or.inl (List.mem_filter.mpr ⟨h, hp⟩))
  · exact List.mem_append.mpr (Or.inr (List.mem_filter.mpr ⟨h, by simp [hp]⟩))

theorem saturated_fullyExpanded {phi gamma : FormulaSet}
    (hcons : isPatentlyInconsistent phi = false)
    (ha : tryAlphaRule phi gamma = none)
    (hb : tryBetaRule phi gamma = none) :
    isFullyExpanded phi = true := by
  unfold isFullyExpanded
  rw [hcons]
  simp only [Bool.not_false, Bool.true_and]
  rw [List.all_eq_true]
  intro f hf
  have hford := @mem_orderedFormulas phi gamma f hf
  cases hcf : classifyFormula f with
  | elementary => simp [hcf]
  | alpha cs =>
    have half := List.findSome?_eq_none_iff.mp ha f hford
    simp only [hcf] at half ⊢
    split at half
    · rename_i hempty
      rw [List.all_eq_true]
      intro c hc
      by_contra hcc
      have hmem : c ∈ cs.filter (fun c => !fsHas phi c) :=
        List.mem_filter.mpr ⟨hc, by simp [Bool.eq_false_iff.mpr hcc]⟩
      rw [List.isEmpty_iff.mp hempty] at hmem
      cases hmem
    · cases half
  | beta cs =>
    have hbf := List.findSome?_eq_none_iff.mp hb f hford
    simp only [hcf] at hbf ⊢
    split at hbf
    · rename_i hany
      exact hany
    · cases hbf

theorem expandLoop_inv (gamma : FormulaSet) (ec rc : Bool) :
    ∀ (fuel : Nat) (L : List FormulaSet) (r3 : List String)
      (fam : List FormulaSet),
      (∀ phi ∈ L, isPatentlyInconsistent phi = false) →
      (∀ phi ∈ L, ∀ g ∈ gamma, fsHas phi g = true) →
      expandLoop gamma ec rc fuel L r3 = some fam →
      ∀ d ∈ fam, isFullyExpanded d = true ∧ ∀ g ∈ gamma, fsHas d g = true := by
  intro fuel
  induction fuel with
  | zero => intro L r3 fam _ _ h; cases h
  | succ n ih =>
    intro L r3 fam hcons hext h
    simp only [expandLoop] at h
    by_cases hch : (passAux gamma ec rc L r3).2.2.2 = true
    · rw [if_pos hch] at h
      refine ih _ _ _ ?_ ?_ h
      · intro d hd
        have hmem := List.mem_append.mp (mem_deduplicateSets hd)
        obtain ⟨psi, hpsi, _, hc⟩ := passAux_out gamma ec rc L r3 d hmem
        rcases hc with hc | rfl
        · exact hc
        · exact hcons d hpsi
      · intro d hd g hg
        have hmem := List.mem_append.mp (mem_deduplicateSets hd)
        obtain ⟨psi, hpsi, hx, _⟩ := passAux_out gamma ec rc L r3 d hmem
        exact hx g (hext psi hpsi g hg)
    · rw [if_neg hch] at h
      have hfalse : (passAux gamma ec rc L r3).2.2.2 = false :=
        Bool.eq_false_iff.mpr hch
      obtain ⟨h1, h2, _, hsat⟩ := passAux_false gamma ec rc L r3 hfalse
      rw [h1, h2, List.append_nil] at h
      have hfam : fam = deduplicateSets L := (Option.some.inj h).symm
      subst hfam
      intro d hd
      have hdL := mem_deduplicateSets hd
      exact ⟨saturated_fullyExpanded (hcons d hdL) (hsat d hdL).1 (hsat d hdL).2,
        hext d hdL⟩

/-- C2: for every input set `Γ` and every option combination, every set
`Δ` the expansion engine returns is not patently inconsistent and is
fully expanded (every α-formula of `Δ` has all its components in `Δ`,
every β-formula of `Δ` has at least one component in `Δ`). -/
theorem expandCore_fullyExpanded (gamma : FormulaSet)
    (enableCuts useRestrictedCuts : Bool) (d : FormulaSet)
    (hd : d ∈ expandCore gamma enableCuts useRestrictedCuts) :
    isPatentlyInconsistent d = false ∧ isFullyExpanded d = true := by
  revert hd
  unfold expandCore
  split
  · intro hd; cases hd
  · rename_i hg
    cases hloop : expandLoop gamma enableCuts useRestrictedCuts
        (expansionFuel gamma) [gamma] [] with
    | none => intro hd; cases hd
    | some fam =>
      intro hd
      have hfe := (expandLoop_inv gamma enableCuts useRestrictedCuts
        (expansionFuel gamma) [gamma] [] fam
        (by
          intro phi hphi
          rcases List.mem_singleton.mp hphi with rfl
          exact Bool.eq_false_iff.mpr hg)
        (by
          intro phi hphi g hg'
          rcases List.mem_singleton.mp hphi with rfl
          exact fsHas_of_mem hg')
        hloop d hd).1
      refine ⟨?_, hfe⟩
      have := hfe
      unfold isFullyExpanded at this
      cases hip : isPatentlyInconsistent d with
      | false => rfl
      | true => rw [hip] at this; simp at this

/-- Witness for `expandCore_fullyExpanded` at `Γ = {p}`. -/
theorem expandCore_fullyExpanded_witness :
    [Formula.atom "p"] ∈ expandCore [Formula.atom "p"] false true ∧
    (isPatentlyInconsistent [Formula.atom "p"] = false ∧
      isFullyExpanded [Formula.atom "p"] = true) :=
  ⟨by decide,
    expandCore_fullyExpanded [Formula.atom "p"] false true
      [Formula.atom "p"] (by decide)⟩

/-- C10: the expansion engine is extensive: every returned set `Δ`
contains every member of the input `Γ` (in the key-based membership sense
of the source's `FormulaSet`). -/
theorem expandCore_extensive (gamma : FormulaSet)
    (enableCuts useRestrictedCuts : Bool) (d : FormulaSet)
    (hd : d ∈ expandCore gamma enableCuts useRestrictedCuts) :
    ∀ g ∈ gamma, fsHas d g = true := by
  revert hd
  unfold expandCore
  split
  · intro hd; cases hd
  · rename_i hg
    cases hloop : expandLoop gamma enableCuts useRestrictedCuts
        (expansionFuel gamma) [gamma] [] with
    | none => intro hd; cases hd
    | some fam =>
      intro hd
      exact (expandLoop_inv gamma enableCuts useRestrictedCuts
        (expansionFuel gamma) [gamma] [] fam
        (by
          intro phi hphi
          rcases List.mem_singleton.mp hphi with rfl
          exact Bool.eq_false_iff.mpr hg)
        (by
          intro phi hphi g hg'
          rcases List.mem_singleton.mp hphi with rfl
          exact fsHas_of_mem hg')
        hloop d hd).2

/-- Witness for `expandCore_extensive` at `Γ = {p ∧ q}`. -/
theorem expandCore_extensive_witness :
    [Formula.and (Formula.atom "p") (Formula.atom "q"),
        Formula.atom "p", Formula.atom "q"] ∈
      expandCore [Formula.and (Formula.atom "p") (Formula.atom "q")] false true ∧
    Formula.and (Formula.atom "p") (Formula.atom "q") ∈
      ([Formula.and (Formula.atom "p") (Formula.atom "q")] : FormulaSet) ∧
    fsHas
      [Formula.and (Formula.atom "p") (Formula.atom "q"),
        Formula.atom "p", Formula.atom "q"]
      (Formula.and (Formula.atom "p") (Formula.atom "q")) = true :=
  ⟨by decide, by decide,
    expandCore_extensive [Formula.and (Formula.atom "p") (Formula.atom "q")]
      false true _ (by decide) _ (by decide)⟩

/-!  ## Injectivity of `formulaKey` on well-formed formulas (C8)

The parser only produces atom and agent names matching `[a-z][a-z0-9_]*`;
on such formulas the canonical key determines the formula.  This is
proved by exhibiting a decoder and showing it inverts `formulaKey`. -/

/-- Characters allowed in parser identifiers (atom and agent names). -/
def identChar (c : Char) : Bool := c.isLower || c.isDigit || c == '_'

/-- A well-formed name: nonempty, made of identifier characters. -/
def wfName (s : String) : Bool := !s.data.isEmpty && s.data.all identChar

/-- Well-formed formulas: all names well formed, all coalitions
nonempty. -/
def wfFormula : Formula → Bool
  | .atom n => wfName n
  | .not s => wfFormula s
  | .and l r => wfFormula l && wfFormula r
  | .D co s => !co.isEmpty && co.all wfName && wfFormula s
  | .C co s => !co.isEmpty && co.all wfName && wfFormula s

/-- Coalitions stored in canonical (sorted, deduplicated) form, at every
`D`/`C` node. -/
def canonicalF : Formula → Bool
  | .atom _ => true
  | .not s => canonicalF s
  | .and l r => canonicalF l && canonicalF r
  | .D co s => (normalizeCoalition co == co) && canonicalF s
  | .C co s => (normalizeCoalition co == co) && canonicalF s

/-- The opening brace character (written by code point to keep braces out
of literals). -/
def lbrace : Char := Char.ofNat 123

/-- The closing brace character. -/
def rbrace : Char := Char.ofNat 125

/-- Structural size of a formula, counting coalition entries; a fuel
bound for the decoder. -/
def sizeF : Formula → Nat
  | .atom _ => 1
  | .not s => sizeF s + 1
  | .and l r => sizeF l + sizeF r + 1
  | .D co s => sizeF s + co.length + 1
  | .C co s => sizeF s + co.length + 1

/-- Decoder for the agent-list segment of a `D`/`C` key: names separated
by commas, terminated by a closing brace. -/
def readAgents : Nat → List Char → Option (List String × List Char)
  | 0, _ => none
  | fuel + 1, cs =>
    let name := cs.takeWhile identChar
    let rest := cs.dropWhile identChar
    if name.isEmpty then none
    else
      match rest with
      | [] => none
      | c :: rest' =>
        if c = ',' then
          (readAgents fuel rest').map (fun p => (String.mk name :: p.1, p.2))
        else if c = rbrace then some ([String.mk name], rest')
        else none

/-- Decoder for `formulaKey` images: inverts the key construction on
well-formed formulas. -/
def decodeF : Nat → List Char → Option (Formula × List Char)
  | 0, _ => none
  | _ + 1, [] => none
  | fuel + 1, c :: cs =>
    if c = '~' then
      (decodeF fuel cs).map (fun p => (Formula.not p.1, p.2))
    else if c = '(' then
      match decodeF fuel cs with
      | some (l, r1) =>
        match r1 with
        | c2 :: r2 =>
          if c2 = '&' then
            match decodeF fuel r2 with
            | some (r, r3) =>
              match r3 with
              | c3 :: r4 => if c3 = ')' then some (Formula.and l r, r4) else none
              | [] => none
            | none => none
          else none
        | [] => none
      | none => none
    else if c = 'D' then
      match cs with
      | [] => none
      | b :: cs' =>
        if b = lbrace then
          match readAgents fuel cs' with
          | some (as, r1) => (decodeF fuel r1).map (fun p => (Formula.D as p.1, p.2))
          | none => none
        else none
    else if c = 'C' then
      match cs with
      | [] => none
      | b :: cs' =>
        if b = lbrace then
          match readAgents fuel cs' with
          | some (as, r1) => (decodeF fuel r1).map (fun p => (Formula.C as p.1, p.2))
          | none => none
        else none
    else if identChar c then
      some (Formula.atom (String.mk ((c :: cs).takeWhile identChar)),
        (c :: cs).dropWhile identChar)
    else none

theorem takeWhile_append_all {p : Char → Bool} :
    ∀ (name rest : List Char), name.all p = true →
      (∀ c, rest.head? = some c → p c = false) →
      (name ++ rest).takeWhile p = name ∧ (name ++ rest).dropWhile p = rest := by
  intro name
  induction name with
  | nil =>
    intro rest _ hrest
    cases rest with
    | nil => exact ⟨rfl, rfl⟩
    | cons c cs =>
      have hc := hrest c rfl
      constructor
      · show List.takeWhile p (c :: cs) = []
        simp [List.takeWhile_cons, hc]
      · show List.dropWhile p (c :: cs) = c :: cs
        simp [List.dropWhile_cons, hc]
  | cons a name ih =>
    intro rest hall hrest
    rw [List.all_cons, Bool.and_eq_true] at hall
    obtain ⟨ih1, ih2⟩ := ih rest hall.2 hrest
    constructor
    · show List.takeWhile p (a :: (name ++ rest)) = a :: name
      simp [List.takeWhile_cons, hall.1, ih1]
    · show List.dropWhile p (a :: (name ++ rest)) = rest
      simp [List.dropWhile_cons, hall.1, ih2]

theorem string_mk_data (s : String) : String.mk s.data = s := rfl

theorem readAgents_key :
    ∀ (co : List String) (fuel : Nat) (tail : List Char),
      co ≠ [] → (∀ a ∈ co, wfName a = true) → co.length ≤ fuel →
      readAgents fuel ((joinComma co).data ++ rbrace :: tail) = some (co, tail) := by
  intro co
  induction co with
  | nil => intro fuel tail h; exact absurd rfl h
  | cons a rest ih =>
    intro fuel tail _ hwf hlen
    cases fuel with
    | zero => exact absurd hlen (by simp)
    | succ fuel =>
      have hwa := hwf a (List.mem_cons_self a rest)
      rw [wfName, Bool.and_eq_true] at hwa
      cases rest with
      | nil =>
        show readAgents (fuel + 1) (a.data ++ rbrace :: tail) = some ([a], tail)
        have htw := takeWhile_append_all a.data (rbrace :: tail) hwa.2
          (fun c hc => by cases hc; decide)
        unfold readAgents
        rw [htw.1, htw.2]
        have hne : a.data.isEmpty = false := by
          cases hd : a.data.isEmpty
          · rfl
          · rw [hd] at hwa; cases hwa.1
        have hc1 : ¬(rbrace = ',') := by decide
        simp [hne, hc1, string_mk_data]
      | cons b rest' =>
        have hjoin : joinComma (a :: b :: rest') = a ++ "," ++ joinComma (b :: rest') := rfl
        rw [hjoin]
        have hdata : (a ++ "," ++ joinComma (b :: rest')).data ++ rbrace :: tail =
            a.data ++ ',' :: ((joinComma (b :: rest')).data ++ rbrace :: tail) := by
          simp [String.data_append]
        rw [hdata]
        have htw := takeWhile_append_all a.data
          (',' :: ((joinComma (b :: rest')).data ++ rbrace :: tail)) hwa.2
          (fun c hc => by cases hc; decide)
        unfold readAgents
        rw [htw.1, htw.2]
        have hne : a.data.isEmpty = false := by
          cases hd : a.data.isEmpty
          · rfl
          · rw [hd] at hwa; cases hwa.1
        have hih := ih fuel tail (by simp)
          (fun x hx => hwf x (List.mem_cons_of_mem a hx))
          (Nat.le_of_succ_le_succ hlen)
        simp [hne, hih, string_mk_data]

theorem decodeF_succ (fuel : Nat) (c : Char) (cs : List Char) :
    decodeF (fuel + 1) (c :: cs) =
      (if c = '~' then
        (decodeF fuel cs).map (fun p => (Formula.not p.1, p.2))
      else if c = '(' then
        match decodeF fuel cs with
        | some (l, r1) =>
          match r1 with
          | c2 :: r2 =>
            if c2 = '&' then
              match decodeF fuel r2 with
              | some (r, r3) =>
                match r3 with
                | c3 :: r4 => if c3 = ')' then some (Formula.and l r, r4) else none
                | [] => none
              | none => none
            else none
          | [] => none
        | none => none
      else if c = 'D' then
        match cs with
        | [] => none
        | b :: cs' =>
          if b = lbrace then
            match readAgents fuel cs' with
            | some (as, r1) => (decodeF fuel r1).map (fun p => (Formula.D as p.1, p.2))
            | none => none
          else none
      else if c = 'C' then
        match cs with
        | [] => none
        | b :: cs' =>
          if b = lbrace then
            match readAgents fuel cs' with
            | some (as, r1) => (decodeF fuel r1).map (fun p => (Formula.C as p.1, p.2))
            | none => none
          else none
      else if identChar c then
        some (Formula.atom (String.mk ((c :: cs).takeWhile identChar)),
          (c :: cs).dropWhile identChar)
      else none) := rfl

theorem decodeF_key :
    ∀ (phi : Formula), wfFormula phi = true →
      ∀ (fuel : Nat), sizeF phi ≤ fuel →
      ∀ (rest : List Char), (∀ c, rest.head? = some c → identChar c = false) →
      decodeF fuel ((formulaKey phi).data ++ rest) = some (phi, rest) := by
  intro phi
  induction phi with
  | atom n =>
    intro hwf fuel hfuel rest hrest
    cases fuel with
    | zero => exact absurd hfuel (by simp [sizeF])
    | succ fuel =>
      have hwf' : wfName n = true := hwf
      rw [wfName, Bool.and_eq_true] at hwf'
      have hkey : (formulaKey (Formula.atom n)).data = n.data := rfl
      rw [hkey]
      cases hd : n.data with
      | nil => rw [hd] at hwf'; cases hwf'.1
      | cons c cs =>
        have hall : (c :: cs).all identChar = true := by rw [← hd]; exact hwf'.2
        have hcid : identChar c = true := by
          rw [List.all_cons, Bool.and_eq_true] at hall; exact hall.1
        have htw := takeWhile_append_all (c :: cs) rest hall hrest
        rw [List.cons_append]
        rw [decodeF_succ]
        rw [if_neg (fun hh : c = '~' => by rw [hh] at hcid; cases hcid)]
        rw [if_neg (fun hh : c = '(' => by rw [hh] at hcid; cases hcid)]
        rw [if_neg (fun hh : c = 'D' => by rw [hh] at hcid; cases hcid)]
        rw [if_neg (fun hh : c = 'C' => by rw [hh] at hcid; cases hcid)]
        rw [if_pos hcid]
        rw [← List.cons_append, htw.1, htw.2]
        have hmk : String.mk (c :: cs) = n := by rw [← hd]
        rw [hmk]
  | not s ih =>
    intro hwf fuel hfuel rest hrest
    cases fuel with
    | zero => exact absurd hfuel (by simp [sizeF])
    | succ fuel =>
      have hkey : (formulaKey (Formula.not s)).data ++ rest =
          '~' :: ((formulaKey s).data ++ rest) := by
        show ("~" ++ formulaKey s).data ++ rest = _
        rw [String.data_append]
        rfl
      rw [hkey]
      rw [decodeF_succ]
      rw [if_pos rfl]
      rw [ih hwf fuel (Nat.le_of_succ_le_succ hfuel) rest hrest]
      rfl
  | and l r ihl ihr =>
    intro hwf fuel hfuel rest hrest
    cases fuel with
    | zero => exact absurd hfuel (by simp [sizeF])
    | succ fuel =>
      have hwf' : (wfFormula l && wfFormula r) = true := hwf
      rw [Bool.and_eq_true] at hwf'
      have d1 : ("(" : String).data = ['('] := rfl
      have d2 : ("&" : String).data = ['&'] := rfl
      have d3 : (")" : String).data = [')'] := rfl
      have hkey : (formulaKey (Formula.and l r)).data ++ rest =
          '(' :: ((formulaKey l).data ++
            '&' :: ((formulaKey r).data ++ ')' :: rest)) := by
        show ("(" ++ formulaKey l ++ "&" ++ formulaKey r ++ ")").data ++ rest = _
        simp [String.data_append, d1, d2, d3]
      rw [hkey]
      rw [decodeF_succ]
      rw [if_neg (by decide), if_pos rfl]
      have hfl : sizeF l ≤ fuel := by simp [sizeF] at hfuel; omega
      have hfr : sizeF r ≤ fuel := by simp [sizeF] at hfuel; omega
      rw [ihl hwf'.1 fuel hfl
        ('&' :: ((formulaKey r).data ++ ')' :: rest))
        (fun c hc => by cases hc; decide)]
      dsimp only
      rw [if_pos rfl]
      rw [ihr hwf'.2 fuel hfr (')' :: rest)
        (fun c hc => by cases hc; decide)]
      dsimp only
      rw [if_pos rfl]
  | D co s ih =>
    intro hwf fuel hfuel rest hrest
    cases fuel with
    | zero => exact absurd hfuel (by simp [sizeF])
    | succ fuel =>
      have hwf' : (!co.isEmpty && co.all wfName && wfFormula s) = true := hwf
      rw [Bool.and_eq_true, Bool.and_eq_true] at hwf'
      have dD : ("D\x7b" : String).data = ['D', lbrace] := rfl
      have dR : ("\x7d" : String).data = [rbrace] := rfl
      have hkey : (formulaKey (Formula.D co s)).data ++ rest =
          'D' :: lbrace ::
            ((joinComma co).data ++ rbrace :: ((formulaKey s).data ++ rest)) := by
        show ("D\x7b" ++ joinComma co ++ "\x7d" ++ formulaKey s).data ++ rest = _
        simp [String.data_append, dD, dR]
        exact ⟨by decide, by decide⟩
      rw [hkey]
      rw [decodeF_succ]
      rw [if_neg (by decide), if_neg (by decide), if_pos rfl]
      dsimp only
      rw [if_pos rfl]
      have hco : co ≠ [] := by
        intro hh
        rw [hh] at hwf'
        cases hwf'.1.1
      rw [readAgents_key co fuel ((formulaKey s).data ++ rest) hco
        (fun a ha => List.all_eq_true.mp hwf'.1.2 a ha)
        (by simp [sizeF] at hfuel; omega)]
      dsimp only
      rw [ih hwf'.2 fuel (by simp [sizeF] at hfuel; omega) rest hrest]
      rfl
  | C co s ih =>
    intro hwf fuel hfuel rest hrest
    cases fuel with
    | zero => exact absurd hfuel (by simp [sizeF])
    | succ fuel =>
      have hwf' : (!co.isEmpty && co.all wfName && wfFormula s) = true := hwf
      rw [Bool.and_eq_true, Bool.and_eq_true] at hwf'
      have dC : ("C\x7b" : String).data = ['C', lbrace] := rfl
      have dR : ("\x7d" : String).data = [rbrace] := rfl
      have hkey : (formulaKey (Formula.C co s)).data ++ rest =
          'C' :: lbrace ::
            ((joinComma co).data ++ rbrace :: ((formulaKey s).data ++ rest)) := by
        show ("C\x7b" ++ joinComma co ++ "\x7d" ++ formulaKey s).data ++ rest = _
        simp [String.data_append, dC, dR]
        exact ⟨by decide, by decide⟩
      rw [hkey]
      rw [decodeF_succ]
      rw [if_neg (by decide), if_neg (by decide), if_neg (by decide), if_pos rfl]
      dsimp only
      rw [if_pos rfl]
      have hco : co ≠ [] := by
        intro hh
        rw [hh] at hwf'
        cases hwf'.1.1
      rw [readAgents_key co fuel ((formulaKey s).data ++ rest) hco
        (fun a ha => List.all_eq_true.mp hwf'.1.2 a ha)
        (by simp [sizeF] at hfuel; omega)]
      dsimp only
      rw [ih hwf'.2 fuel (by simp [sizeF] at hfuel; omega) rest hrest]
      rfl

theorem formulaKey_injOn {phi psi : Formula} (hphi : wfFormula phi = true)
    (hpsi : wfFormula psi = true) (h : formulaKey phi = formulaKey psi) :
    phi = psi := by
  have h1 := decodeF_key phi hphi (max (sizeF phi) (sizeF psi))
    (Nat.le_max_left _ _) [] (fun c hc => by cases hc)
  have h2 := decodeF_key psi hpsi (max (sizeF phi) (sizeF psi))
    (Nat.le_max_right _ _) [] (fun c hc => by cases hc)
  rw [List.append_nil] at h1 h2
  rw [h] at h1
  rw [h1] at h2
  exact congrArg Prod.fst (Option.some.inj h2)

/-- C8 (amended): on formulas whose coalitions are canonical and whose
atom and agent names are parser identifiers (nonempty, over
`[a-z0-9_]`), `formulaKey` agrees with structural equality. -/
theorem formulaKey_agrees_structural (phi psi : Formula)
    (hphi : wfFormula phi = true) (hpsi : wfFormula psi = true)
    (_hcphi : canonicalF phi = true) (_hcpsi : canonicalF psi = true) :
    formulaKey phi = formulaKey psi ↔ phi = psi :=
  ⟨fun h => formulaKey_injOn hphi hpsi h, fun h => h ▸ rfl⟩

/-- Witness for `formulaKey_agrees_structural` on `p` and `¬q`. -/
theorem formulaKey_agrees_structural_witness :
    wfFormula (Formula.atom "p") = true ∧
    wfFormula (Formula.not (Formula.atom "q")) = true ∧
    canonicalF (Formula.atom "p") = true ∧
    canonicalF (Formula.not (Formula.atom "q")) = true ∧
    (formulaKey (Formula.atom "p") = formulaKey (Formula.not (Formula.atom "q")) ↔
      Formula.atom "p" = Formula.not (Formula.atom "q")) :=
  ⟨by decide, by decide, by decide, by decide,
    formulaKey_agrees_structural (Formula.atom "p")
      (Formula.not (Formula.atom "q")) (by decide) (by decide) (by decide)
      (by decide)⟩

/-- C8 (counterexample to the claim as stated): over the raw formula
type, keys do not determine formulas — the atom literally named `"~p"`
and the negation of the atom `"p"` have canonical (vacuously sorted,
deduplicated) coalitions and equal keys but are different formulas. -/
theorem formulaKey_spec_false :
    canonicalF (Formula.atom "~p") = true ∧
    canonicalF (Formula.not (Formula.atom "p")) = true ∧
    formulaKey (Formula.atom "~p") = formulaKey (Formula.not (Formula.atom "p")) ∧
    Formula.atom "~p" ≠ Formula.not (Formula.atom "p") := by
  refine ⟨by decide, by decide, by decide, by decide⟩

/-!  ## Rule DR builds exactly the specified prestate (C3)  -/

theorem fsHas_congr_key {x f : Formula} (s : FormulaSet)
    (h : formulaKey x = formulaKey f) : fsHas s x = fsHas s f := by
  unfold fsHas
  rw [h]

theorem fsHas_fsAdd_iff (s : FormulaSet) (x f : Formula) :
    fsHas (fsAdd s x) f = true ↔
      (fsHas s f = true ∨ formulaKey x = formulaKey f) := by
  unfold fsAdd
  split
  · rename_i hx
    constructor
    · exact Or.inl
    · rintro (h | hk)
      · exact h
      · rw [← fsHas_congr_key s hk]
        exact hx
  · unfold fsHas
    rw [List.any_append]
    simp [beq_iff_eq]

theorem fsHas_foldl_filter (P : Formula → Bool) :
    ∀ (l : List Formula) (acc : FormulaSet) (f : Formula),
      fsHas (l.foldl (fun a g => if P g then fsAdd a g else a) acc) f = true ↔
        (fsHas acc f = true ∨
          ∃ g ∈ l, P g = true ∧ formulaKey g = formulaKey f) := by
  intro l
  induction l with
  | nil => intro acc f; simp
  | cons x l ih =>
    intro acc f
    rw [List.foldl_cons, ih]
    by_cases hx : P x = true
    · rw [if_pos hx, fsHas_fsAdd_iff]
      simp only [List.mem_cons]
      constructor
      · rintro ((h | hk) | ⟨g, hg, hp, hkey⟩)
        · exact Or.inl h
        · exact Or.inr ⟨x, Or.inl rfl, hx, hk⟩
        · exact Or.inr ⟨g, Or.inr hg, hp, hkey⟩
      · rintro (h | ⟨g, (rfl | hg), hp, hkey⟩)
        · exact Or.inl (Or.inl h)
        · exact Or.inl (Or.inr hkey)
        · exact Or.inr ⟨g, hg, hp, hkey⟩
    · rw [if_neg hx]
      simp only [List.mem_cons]
      constructor
      · rintro (h | ⟨g, hg, hp, hkey⟩)
        · exact Or.inl h
        · exact Or.inr ⟨g, Or.inr hg, hp, hkey⟩
      · rintro (h | ⟨g, (rfl | hg), hp, hkey⟩)
        · exact Or.inl h
        · exact absurd hp hx
        · exact Or.inr ⟨g, hg, hp, hkey⟩

theorem fsHas_seed (x f : Formula) :
    fsHas (fsAdd [] x) f = true ↔ formulaKey x = formulaKey f := by
  simp [fsAdd, fsHas, beq_iff_eq]

theorem fsHas_drTarget (delta : FormulaSet) (chi : Formula) (A : Coalition)
    (phi f : Formula) :
    fsHas (drTarget delta chi A phi) f = true ↔
      (formulaKey (Formula.not phi) = formulaKey f ∨
        ∃ g ∈ delta, drKeep A chi g = true ∧ formulaKey g = formulaKey f) := by
  unfold drTarget
  rw [fsHas_foldl_filter (drKeep A chi) delta (fsAdd [] (Formula.not phi)) f]
  rw [fsHas_seed]

theorem fsHas_wf_mem {delta : FormulaSet} {f : Formula}
    (hwd : ∀ g ∈ delta, wfFormula g = true) (hwf : wfFormula f = true) :
    fsHas delta f = true ↔ f ∈ delta := by
  constructor
  · intro h
    obtain ⟨g, hg, hk⟩ := List.any_eq_true.mp h
    have := formulaKey_injOn (hwd g hg) hwf (beq_iff_eq.mp hk)
    exact this ▸ hg
  · exact fsHas_of_mem

theorem drKeep_shape {A : Coalition} {phi f : Formula}
    (hwf : wfFormula f = true)
    (hwchi : wfFormula (Formula.not (Formula.D A phi)) = true) :
    drKeep A (Formula.not (Formula.D A phi)) f = true ↔
      ((∃ B psi, f = Formula.D B psi ∧ coalitionSubset B A = true) ∨
        (∃ B psi, f = Formula.not (Formula.D B psi) ∧
          coalitionSubset B A = true ∧ f ≠ Formula.not (Formula.D A phi)) ∨
        (∃ B psi, f = Formula.not (Formula.C B psi) ∧
          coalitionIntersects B A = true)) := by
  cases f with
  | atom n => simp [drKeep]
  | and l r => simp [drKeep]
  | D co s =>
    simp only [drKeep]
    constructor
    · intro h
      exact Or.inl ⟨co, s, rfl, h⟩
    · rintro (⟨B, psi, heq, hsub⟩ | ⟨B, psi, heq, _, _⟩ | ⟨B, psi, heq, _⟩)
      · cases heq; exact hsub
      · cases heq
      · cases heq
  | C co s => simp [drKeep]
  | not s =>
    cases s with
    | atom n => simp [drKeep]
    | not s0 => simp [drKeep]
    | and l r => simp [drKeep]
    | D co s0 =>
      simp only [drKeep, Bool.and_eq_true]
      constructor
      · rintro ⟨hsub, hne⟩
        refine Or.inr (Or.inl ⟨co, s0, rfl, hsub, ?_⟩)
        intro heq
        rw [heq] at hne
        unfold formulaEqual at hne
        rw [beq_self_eq_true] at hne
        cases hne
      · rintro (⟨B, psi, heq, _⟩ | ⟨B, psi, heq, hsub, hne⟩ | ⟨B, psi, heq, _⟩)
        · cases heq
        · cases heq
          refine ⟨hsub, ?_⟩
          cases hfe : formulaEqual (Formula.not (Formula.D co s0))
              (Formula.not (Formula.D A phi)) with
          | false => rfl
          | true =>
            exact absurd
              (formulaKey_injOn hwf hwchi (beq_iff_eq.mp hfe)) hne
        · cases heq
    | C co s0 =>
      simp only [drKeep]
      constructor
      · intro h
        exact Or.inr (Or.inr ⟨co, s0, rfl, h⟩)
      · rintro (⟨B, psi, heq, _⟩ | ⟨B, psi, heq, _, _⟩ | ⟨B, psi, heq, hint⟩)
        · cases heq
        · cases heq
        · cases heq; exact hint

theorem drTarget_mem {delta : FormulaSet} {A : Coalition} {phi f : Formula}
    (hwd : ∀ g ∈ delta, wfFormula g = true) (hwphi : wfFormula phi = true)
    (hwchi : wfFormula (Formula.not (Formula.D A phi)) = true)
    (hwf : wfFormula f = true) :
    fsHas (drTarget delta (Formula.not (Formula.D A phi)) A phi) f = true ↔
      (f = Formula.not phi ∨
        (fsHas delta f = true ∧
          ((∃ B psi, f = Formula.D B psi ∧ coalitionSubset B A = true) ∨
            (∃ B psi, f = Formula.not (Formula.D B psi) ∧
              coalitionSubset B A = true ∧ f ≠ Formula.not (Formula.D A phi)) ∨
            (∃ B psi, f = Formula.not (Formula.C B psi) ∧
              coalitionIntersects B A = true)))) := by
  rw [fsHas_drTarget]
  constructor
  · rintro (hk | ⟨g, hg, hkeep, hkey⟩)
    · exact Or.inl (formulaKey_injOn (show wfFormula (Formula.not phi) = true
        from hwphi) hwf hk).symm
    · have hgf : g = f := formulaKey_injOn (hwd g hg) hwf hkey
      subst hgf
      exact Or.inr ⟨fsHas_of_mem hg, (drKeep_shape hwf hwchi).mp hkeep⟩
  · rintro (rfl | ⟨hmem, hshape⟩)
    · exact Or.inl rfl
    · have hf : f ∈ delta := (fsHas_wf_mem hwd hwf).mp hmem
      exact Or.inr ⟨f, hf, (drKeep_shape hwf hwchi).mpr hshape, rfl⟩

theorem addPrestate_lookup_some (cs : ConstructionState) (fs : FormulaSet)
    (pid0 : NodeId) (h : cs.prestateIndex.lookup (fsKey fs) = some pid0) :
    addPrestate cs fs = (cs, pid0) := by
  unfold addPrestate
  dsimp only
  rw [h]

theorem addPrestate_lookup_none (cs : ConstructionState) (fs : FormulaSet)
    (h : cs.prestateIndex.lookup (fsKey fs) = none) :
    addPrestate cs fs =
      ({ cs with
          pret :=
            { cs.pret with
              prestates :=
                cs.pret.prestates ++ [(freshNodeId "p" cs.counter, fs)] },
          prestateIndex :=
            cs.prestateIndex ++ [(fsKey fs, freshNodeId "p" cs.counter)],
          counter := cs.counter + 1 },
        freshNodeId "p" cs.counter) := by
  unfold addPrestate
  dsimp only
  rw [h]

/-- C3: for a state `Δ` and a diamond `χ = ¬D_A φ ∈ Δ`, rule `DR`
succeeds and (i) appends a solid edge from `Δ` to the target prestate
labelled `χ`, (ii) builds the target set containing exactly `¬φ`, the
`D_B ψ ∈ Δ` with `B ⊆ A`, the `¬D_B ψ ∈ Δ` with `B ⊆ A` other than `χ`,
and the `¬C_B ψ ∈ Δ` with `B ∩ A ≠ ∅`, and (iii) reuses the existing
prestate with the target's canonical set key when one exists and mints a
fresh one otherwise.  (Stated for well-formed formulas, on which keys
determine formulas.) -/
theorem applyDR_builds (cs : ConstructionState) (stateId : NodeId)
    (A : Coalition) (phi : Formula) (delta : FormulaSet)
    (hstate : cs.pret.states.lookup stateId = some delta)
    (hwd : ∀ g ∈ delta, wfFormula g = true)
    (hwphi : wfFormula phi = true)
    (hwchi : wfFormula (Formula.not (Formula.D A phi)) = true) :
    ∃ cs' pid,
      applyDR cs stateId (Formula.not (Formula.D A phi)) = some (cs', pid) ∧
      cs'.pret.solidEdges =
        cs.pret.solidEdges ++
          [{ fromId := stateId, toId := pid,
             label := Formula.not (Formula.D A phi) }] ∧
      (∀ f, wfFormula f = true →
        (fsHas (drTarget delta (Formula.not (Formula.D A phi)) A phi) f = true ↔
          (f = Formula.not phi ∨
            (fsHas delta f = true ∧
              ((∃ B psi, f = Formula.D B psi ∧ coalitionSubset B A = true) ∨
                (∃ B psi, f = Formula.not (Formula.D B psi) ∧
                  coalitionSubset B A = true ∧
                  f ≠ Formula.not (Formula.D A phi)) ∨
                (∃ B psi, f = Formula.not (Formula.C B psi) ∧
                  coalitionIntersects B A = true)))))) ∧
      (match cs.prestateIndex.lookup
          (fsKey (drTarget delta (Formula.not (Formula.D A phi)) A phi)) with
        | some pid0 =>
          pid = pid0 ∧ cs'.pret.prestates = cs.pret.prestates ∧
            cs'.counter = cs.counter
        | none =>
          pid = freshNodeId "p" cs.counter ∧
            cs'.pret.prestates =
              cs.pret.prestates ++
                [(pid, drTarget delta (Formula.not (Formula.D A phi)) A phi)] ∧
            cs'.counter = cs.counter + 1) := by
  have hmem := fun f hf => @drTarget_mem delta A phi f hwd hwphi hwchi hf
  unfold applyDR
  rw [hstate]
  dsimp only
  cases hlook : cs.prestateIndex.lookup
      (fsKey (drTarget delta (Formula.not (Formula.D A phi)) A phi)) with
  | some pid0 =>
    rw [addPrestate_lookup_some cs _ pid0 hlook]
    refine ⟨_, pid0, rfl, ?_, hmem, ?_, ?_, ?_⟩ <;> rfl
  | none =>
    rw [addPrestate_lookup_none cs _ hlook]
    refine ⟨_, freshNodeId "p" cs.counter, rfl, ?_, hmem, ?_, ?_, ?_⟩ <;> rfl

/-- The state set of the `applyDR_builds` witness: `{¬D_{a} p, D_{a} q}`. -/
def deltaW : FormulaSet :=
  [Formula.not (Formula.D ["a"] (Formula.atom "p")),
    Formula.D ["a"] (Formula.atom "q")]

/-- The construction state of the `applyDR_builds` witness: one state
`s0` holding `deltaW`. -/
def csW : ConstructionState :=
  { pret :=
      { prestates := [], states := [("s0", deltaW)], dashedEdges := [],
        solidEdges := [] },
    prestateIndex := [], stateIndex := [(fsKey deltaW, "s0")], counter := 1 }

/-- Witness for `applyDR_builds`: rule `DR` applied to `s0` and
`¬D_{a} p` succeeds, and the `D_{a} q` member is carried into the target
(its coalition is contained in `{a}`). -/
theorem applyDR_builds_witness :
    csW.pret.states.lookup "s0" = some deltaW ∧
    (∀ g ∈ deltaW, wfFormula g = true) ∧
    fsHas (drTarget deltaW (Formula.not (Formula.D ["a"] (Formula.atom "p")))
      ["a"] (Formula.atom "p")) (Formula.D ["a"] (Formula.atom "q")) = true := by
  refine ⟨by decide, by decide, ?_⟩
  obtain ⟨cs', pid, _, _, hmem, _⟩ := applyDR_builds csW "s0" ["a"]
    (Formula.atom "p") deltaW (by decide) (by decide) (by decide) (by decide)
  exact (hmem (Formula.D ["a"] (Formula.atom "q")) (by decide)).mpr
    (Or.inr ⟨by decide, Or.inl ⟨["a"], Formula.atom "q", rfl, by decide⟩⟩)

/-!  ## Termination of the expansion loop (C6)

The measure argument needs: the sort underlying `fsKey` is
permutation-invariant; a finite universe closed under all rule-added
formulas; and strict weight decrease for the α/β/cut branches together
with strict growth of the memoization set for rule 3.  -/

theorem char_toNat_inj {a b : Char} (h : a.toNat = b.toNat) : a = b :=
  Char.ext (UInt32.ext h)

theorem lexLe_cons (x y : Char) (xs ys : List Char) :
    lexLe (x :: xs) (y :: ys) =
      (if x.toNat < y.toNat then true
       else if y.toNat < x.toNat then false else lexLe xs ys) := rfl

theorem lexLe_total : ∀ a b : List Char, lexLe a b = true ∨ lexLe b a = true := by
  intro a
  induction a with
  | nil => intro b; exact Or.inl rfl
  | cons x xs ih =>
    intro b
    cases b with
    | nil => exact Or.inr rfl
    | cons y ys =>
      by_cases h1 : x.toNat < y.toNat
      · exact Or.inl (by rw [lexLe_cons, if_pos h1])
      · by_cases h2 : y.toNat < x.toNat
        · exact Or.inr (by rw [lexLe_cons, if_pos h2])
        · rcases ih ys with h | h
          · exact Or.inl (by rw [lexLe_cons, if_neg h1, if_neg h2]; exact h)
          · exact Or.inr (by rw [lexLe_cons, if_neg h2, if_neg h1]; exact h)

theorem lexLe_trans :
    ∀ a b c : List Char, lexLe a b = true → lexLe b c = true →
      lexLe a c = true := by
  intro a
  induction a with
  | nil => intro b c _ _; rfl
  | cons x xs ih =>
    intro b c hab hbc
    cases b with
    | nil => cases hab
    | cons y ys =>
      cases c with
      | nil => cases hbc
      | cons z zs =>
        rw [lexLe_cons] at hab hbc ⊢
        by_cases h1 : x.toNat < y.toNat
        · by_cases h2 : y.toNat < z.toNat
          · rw [if_pos (by omega)]
          · by_cases h3 : z.toNat < y.toNat
            · rw [if_neg h2, if_pos h3] at hbc
              cases hbc
            · rw [if_pos (by omega)]
        · by_cases h4 : y.toNat < x.toNat
          · rw [if_neg h1, if_pos h4] at hab; cases hab
          · by_cases h2 : y.toNat < z.toNat
            · rw [if_pos (by omega)]
            · by_cases h3 : z.toNat < y.toNat
              · rw [if_neg h2, if_pos h3] at hbc; cases hbc
              · rw [if_neg h1, if_neg h4] at hab
                rw [if_neg h2, if_neg h3] at hbc
                rw [if_neg (show ¬x.toNat < z.toNat by omega),
                  if_neg (show ¬z.toNat < x.toNat by omega)]
                exact ih ys zs hab hbc

theorem lexLe_antisymm :
    ∀ a b : List Char, lexLe a b = true → lexLe b a = true → a = b := by
  intro a
  induction a with
  | nil =>
    intro b _ hba
    cases b with
    | nil => rfl
    | cons y ys => cases hba
  | cons x xs ih =>
    intro b hab hba
    cases b with
    | nil => cases hab
    | cons y ys =>
      rw [lexLe_cons] at hab hba
      by_cases h1 : x.toNat < y.toNat
      · rw [if_neg (by omega), if_pos h1] at hba; cases hba
      · by_cases h2 : y.toNat < x.toNat
        · rw [if_neg h1, if_pos h2] at hab; cases hab
        · rw [if_neg h1, if_neg h2] at hab
          rw [if_neg h2, if_neg h1] at hba
          rw [char_toNat_inj (show x.toNat = y.toNat by omega), ih ys hab hba]

theorem string_ext {a b : String} (h : a.data = b.data) : a = b := by
  cases a; cases b; cases h; rfl

theorem strLe_total (a b : String) : strLe a b = true ∨ strLe b a = true :=
  lexLe_total a.data b.data

theorem strLe_trans {a b c : String} (h1 : strLe a b = true)
    (h2 : strLe b c = true) : strLe a c = true :=
  lexLe_trans a.data b.data c.data h1 h2

theorem strLe_antisymm {a b : String} (h1 : strLe a b = true)
    (h2 : strLe b a = true) : a = b :=
  string_ext (lexLe_antisymm a.data b.data h1 h2)

theorem insertKey_perm (k : String) :
    ∀ l : List String, (insertKey k l).Perm (k :: l) := by
  intro l
  induction l with
  | nil => exact List.Perm.refl _
  | cons x xs ih =>
    unfold insertKey
    split
    · exact List.Perm.refl _
    · exact ((ih.cons x).trans (List.Perm.swap k x xs))

theorem sortKeys_perm : ∀ l : List String, (sortKeys l).Perm l := by
  intro l
  induction l with
  | nil => exact List.Perm.refl _
  | cons x xs ih =>
    unfold sortKeys
    exact (insertKey_perm x (sortKeys xs)).trans (ih.cons x)

theorem insertKey_sorted (k : String) :
    ∀ l : List String, List.Pairwise (fun a b => strLe a b = true) l →
      List.Pairwise (fun a b => strLe a b = true) (insertKey k l) := by
  intro l
  induction l with
  | nil => intro _; exact List.pairwise_singleton _ k
  | cons x xs ih =>
    intro h
    rw [List.pairwise_cons] at h
    unfold insertKey
    split
    · rename_i hkx
      rw [List.pairwise_cons]
      refine ⟨?_, List.pairwise_cons.mpr h⟩
      intro y hy
      rcases List.mem_cons.mp hy with rfl | hmem
      · exact hkx
      · exact strLe_trans hkx (h.1 y hmem)
    · rename_i hkx
      have hxk : strLe x k = true := by
        rcases strLe_total k x with h' | h'
        · exact absurd h' hkx
        · exact h'
      rw [List.pairwise_cons]
      refine ⟨?_, ih h.2⟩
      intro y hy
      have := (insertKey_perm k xs).mem_iff.mp hy
      rcases List.mem_cons.mp this with rfl | hmem
      · exact hxk
      · exact h.1 y hmem

theorem sortKeys_sorted :
    ∀ l : List String,
      List.Pairwise (fun a b => strLe a b = true) (sortKeys l) := by
  intro l
  induction l with
  | nil => exact List.Pairwise.nil
  | cons x xs ih =>
    unfold sortKeys
    exact insertKey_sorted x (sortKeys xs) ih

theorem sortKeys_eq_of_perm {l1 l2 : List String} (h : l1.Perm l2) :
    sortKeys l1 = sortKeys l2 := by
  haveI : IsAntisymm String (fun a b => strLe a b = true) :=
    ⟨fun _ _ h1 h2 => strLe_antisymm h1 h2⟩
  exact List.eq_of_perm_of_sorted
    ((sortKeys_perm l1).trans (h.trans (sortKeys_perm l2).symm))
    (sortKeys_sorted l1) (sortKeys_sorted l2)

theorem contains_iff_mem {l : List String} {x : String} :
    l.contains x = true ↔ x ∈ l := by
  rw [List.contains_eq_any_beq, List.any_eq_true]
  constructor
  · rintro ⟨y, hy, hbeq⟩
    exact (beq_iff_eq.mp hbeq) ▸ hy
  · intro h
    exact ⟨x, h, beq_self_eq_true x⟩

theorem mem_dedupStrAux :
    ∀ (l : List String) (seen : List String) (x : String),
      x ∈ dedupStrAux seen l ↔ (x ∈ l ∧ x ∉ seen) := by
  intro l
  induction l with
  | nil => intro seen x; simp [dedupStrAux]
  | cons y ys ih =>
    intro seen x
    unfold dedupStrAux
    by_cases hc : seen.contains y = true
    · rw [if_pos hc, ih]
      have hyseen : y ∈ seen := contains_iff_mem.mp hc
      simp only [List.mem_cons]
      constructor
      · rintro ⟨hmem, hnot⟩
        exact ⟨Or.inr hmem, hnot⟩
      · rintro ⟨hmem | hmem, hnot⟩
        · exact absurd (hmem ▸ hyseen) hnot
        · exact ⟨hmem, hnot⟩
    · rw [if_neg hc]
      have hyseen : y ∉ seen := fun h => hc (contains_iff_mem.mpr h)
      simp only [List.mem_cons, ih]
      constructor
      · rintro (rfl | ⟨hmem, hnot⟩)
        · exact ⟨Or.inl rfl, hyseen⟩
        · exact ⟨Or.inr hmem, fun h => hnot (Or.inr h)⟩
      · rintro ⟨rfl | hmem, hnot⟩
        · exact Or.inl rfl
        · by_cases hxy : x = y
          · exact Or.inl hxy
          · exact Or.inr ⟨hmem, fun h => h.elim hxy hnot⟩

theorem mem_dedupStrings {l : List String} {x : String} :
    x ∈ dedupStrings l ↔ x ∈ l := by
  rw [dedupStrings, mem_dedupStrAux]
  simp

theorem nodup_dedupStrAux :
    ∀ (l : List String) (seen : List String), (dedupStrAux seen l).Nodup := by
  intro l
  induction l with
  | nil => intro seen; exact List.nodup_nil
  | cons y ys ih =>
    intro seen
    unfold dedupStrAux
    by_cases hc : seen.contains y = true
    · rw [if_pos hc]; exact ih seen
    · rw [if_neg hc]
      refine List.nodup_cons.mpr ⟨?_, ih (y :: seen)⟩
      intro hmem
      exact ((mem_dedupStrAux ys (y :: seen) y).mp hmem).2 (List.mem_cons_self y seen)

theorem nodup_dedupStrings (l : List String) : (dedupStrings l).Nodup :=
  nodup_dedupStrAux l []

theorem self_mem_subList (f : Formula) : f ∈ subList f := by
  cases f <;> simp [subList]

theorem subList_trans :
    ∀ (g f x : Formula), x ∈ subList f → f ∈ subList g → x ∈ subList g := by
  intro g
  induction g with
  | atom n =>
    intro f x hx hf
    rcases List.mem_singleton.mp hf with rfl
    exact hx
  | not s ih =>
    intro f x hx hf
    rcases List.mem_cons.mp hf with rfl | hmem
    · exact hx
    · exact List.mem_cons_of_mem _ (ih f x hx hmem)
  | and l r ihl ihr =>
    intro f x hx hf
    rcases List.mem_cons.mp hf with rfl | hmem
    · exact hx
    · rcases List.mem_append.mp hmem with h | h
      · exact List.mem_cons_of_mem _ (List.mem_append.mpr (Or.inl (ihl f x hx h)))
      · exact List.mem_cons_of_mem _ (List.mem_append.mpr (Or.inr (ihr f x hx h)))
  | D co s ih =>
    intro f x hx hf
    rcases List.mem_cons.mp hf with rfl | hmem
    · exact hx
    · exact List.mem_cons_of_mem _ (ih f x hx hmem)
  | C co s ih =>
    intro f x hx hf
    rcases List.mem_cons.mp hf with rfl | hmem
    · exact hx
    · exact List.mem_cons_of_mem _ (ih f x hx hmem)

theorem mem_baseXL_iff {gamma : FormulaSet} {x : Formula} :
    x ∈ baseXL gamma ↔ ∃ g ∈ gamma, x ∈ subList g := by
  unfold baseXL
  induction gamma with
  | nil => simp
  | cons g gs ih =>
    simp only [List.foldr_cons, List.mem_append, ih, List.mem_cons]
    constructor
    · rintro (h | ⟨g', hg', hx⟩)
      · exact ⟨g, Or.inl rfl, h⟩
      · exact ⟨g', Or.inr hg', hx⟩
    · rintro ⟨g', rfl | hg', hx⟩
      · exact Or.inl hx
      · exact Or.inr ⟨g', hg', hx⟩

theorem baseXL_self {gamma : FormulaSet} {g : Formula} (h : g ∈ gamma) :
    g ∈ baseXL gamma :=
  mem_baseXL_iff.mpr ⟨g, h, self_mem_subList g⟩

theorem baseXL_closed {gamma : FormulaSet} {f x : Formula}
    (hf : f ∈ baseXL gamma) (hx : x ∈ subList f) : x ∈ baseXL gamma := by
  obtain ⟨g, hg, hfg⟩ := mem_baseXL_iff.mp hf
  exact mem_baseXL_iff.mpr ⟨g, hg, subList_trans g f x hx hfg⟩

theorem mem_cAugL_iff {X : List Formula} {x : Formula} :
    x ∈ cAugL X ↔
      ∃ co s a, Formula.C co s ∈ X ∧ a ∈ co ∧
        x = Formula.D [a] (Formula.C co s) := by
  unfold cAugL
  induction X with
  | nil => simp
  | cons g gs ih =>
    rw [List.foldr_cons]
    cases g with
    | C co s =>
      simp only [List.mem_append, ih, List.mem_map, List.mem_cons]
      constructor
      · rintro (⟨a, ha, rfl⟩ | ⟨co', s', a', hmem, ha', rfl⟩)
        · exact ⟨co, s, a, Or.inl rfl, ha, rfl⟩
        · exact ⟨co', s', a', Or.inr hmem, ha', rfl⟩
      · rintro ⟨co', s', a', hCs | hmem, ha', rfl⟩
        · rcases hCs with ⟨rfl, rfl⟩
          exact Or.inl ⟨a', ha', rfl⟩
        · exact Or.inr ⟨co', s', a', hmem, ha', rfl⟩
    | atom n =>
      rw [ih]
      simp only [List.mem_cons]
      constructor
      · rintro ⟨co', s', a', hmem, ha', rfl⟩
        exact ⟨co', s', a', Or.inr hmem, ha', rfl⟩
      · rintro ⟨co', s', a', hC | hmem, ha', rfl⟩
        · cases hC
        · exact ⟨co', s', a', hmem, ha', rfl⟩
    | not s0 =>
      rw [ih]
      simp only [List.mem_cons]
      constructor
      · rintro ⟨co', s', a', hmem, ha', rfl⟩
        exact ⟨co', s', a', Or.inr hmem, ha', rfl⟩
      · rintro ⟨co', s', a', hC | hmem, ha', rfl⟩
        · cases hC
        · exact ⟨co', s', a', hmem, ha', rfl⟩
    | and l0 r0 =>
      rw [ih]
      simp only [List.mem_cons]
      constructor
      · rintro ⟨co', s', a', hmem, ha', rfl⟩
        exact ⟨co', s', a', Or.inr hmem, ha', rfl⟩
      · rintro ⟨co', s', a', hC | hmem, ha', rfl⟩
        · cases hC
        · exact ⟨co', s', a', hmem, ha', rfl⟩
    | D co0 s0 =>
      rw [ih]
      simp only [List.mem_cons]
      constructor
      · rintro ⟨co', s', a', hmem, ha', rfl⟩
        exact ⟨co', s', a', Or.inr hmem, ha', rfl⟩
      · rintro ⟨co', s', a', hC | hmem, ha', rfl⟩
        · cases hC
        · exact ⟨co', s', a', hmem, ha', rfl⟩

theorem univ_of_baseXL {gamma : FormulaSet} {x : Formula}
    (h : x ∈ baseXL gamma) : x ∈ univList gamma :=
  List.mem_append.mpr (Or.inl (List.mem_append.mpr (Or.inl h)))

theorem univ_of_cAug {gamma : FormulaSet} {x : Formula}
    (h : x ∈ cAugL (baseXL gamma)) : x ∈ univList gamma :=
  List.mem_append.mpr (Or.inl (List.mem_append.mpr (Or.inr h)))

theorem univ_of_not_baseXL {gamma : FormulaSet} {x : Formula}
    (h : x ∈ baseXL gamma) : Formula.not x ∈ univList gamma :=
  List.mem_append.mpr (Or.inr (List.mem_map.mpr
    ⟨x, List.mem_append.mpr (Or.inl h), rfl⟩))

theorem univ_of_not_cAug {gamma : FormulaSet} {x : Formula}
    (h : x ∈ cAugL (baseXL gamma)) : Formula.not x ∈ univList gamma :=
  List.mem_append.mpr (Or.inr (List.mem_map.mpr
    ⟨x, List.mem_append.mpr (Or.inr h), rfl⟩))

theorem mem_univList_cases {gamma : FormulaSet} {x : Formula}
    (h : x ∈ univList gamma) :
    x ∈ baseXL gamma ∨ x ∈ cAugL (baseXL gamma) ∨
      ∃ h0, (h0 ∈ baseXL gamma ∨ h0 ∈ cAugL (baseXL gamma)) ∧
        x = Formula.not h0 := by
  rcases List.mem_append.mp h with h1 | h2
  · rcases List.mem_append.mp h1 with h | h
    · exact Or.inl h
    · exact Or.inr (Or.inl h)
  · obtain ⟨h0, hh0, rfl⟩ := List.mem_map.mp h2
    exact Or.inr (Or.inr ⟨h0, List.mem_append.mp hh0, rfl⟩)

theorem baseXL_child_not {gamma : FormulaSet} {s : Formula}
    (h : Formula.not s ∈ baseXL gamma) : s ∈ baseXL gamma :=
  baseXL_closed h (List.mem_cons_of_mem _ (self_mem_subList s))

theorem baseXL_child_and_left {gamma : FormulaSet} {l r : Formula}
    (h : Formula.and l r ∈ baseXL gamma) : l ∈ baseXL gamma :=
  baseXL_closed h (List.mem_cons_of_mem _
    (List.mem_append.mpr (Or.inl (self_mem_subList l))))

theorem baseXL_child_and_right {gamma : FormulaSet} {l r : Formula}
    (h : Formula.and l r ∈ baseXL gamma) : r ∈ baseXL gamma :=
  baseXL_closed h (List.mem_cons_of_mem _
    (List.mem_append.mpr (Or.inr (self_mem_subList r))))

theorem baseXL_child_D {gamma : FormulaSet} {co : Coalition} {s : Formula}
    (h : Formula.D co s ∈ baseXL gamma) : s ∈ baseXL gamma :=
  baseXL_closed h (List.mem_cons_of_mem _ (self_mem_subList s))

theorem baseXL_child_C {gamma : FormulaSet} {co : Coalition} {s : Formula}
    (h : Formula.C co s ∈ baseXL gamma) : s ∈ baseXL gamma :=
  baseXL_closed h (List.mem_cons_of_mem _ (self_mem_subList s))

theorem componentsOf_atom (n : String) : componentsOf (Formula.atom n) = [] := rfl

theorem componentsOf_not_atom (n : String) :
    componentsOf (Formula.not (Formula.atom n)) = [] := rfl

theorem componentsOf_not_not (s : Formula) :
    componentsOf (Formula.not (Formula.not s)) = [s] := rfl

theorem componentsOf_not_and (l r : Formula) :
    componentsOf (Formula.not (Formula.and l r)) =
      [Formula.not l, Formula.not r] := rfl

theorem componentsOf_not_D (co : Coalition) (s : Formula) :
    componentsOf (Formula.not (Formula.D co s)) = [] := rfl

theorem componentsOf_not_C (co : Coalition) (s : Formula) :
    componentsOf (Formula.not (Formula.C co s)) =
      Formula.not s ::
        co.map (fun a => Formula.not (Formula.D [a] (Formula.C co s))) := rfl

theorem componentsOf_and (l r : Formula) :
    componentsOf (Formula.and l r) = [l, r] := rfl

theorem componentsOf_D (co : Coalition) (s : Formula) :
    componentsOf (Formula.D co s) = [Formula.D co s, s] := rfl

theorem componentsOf_C (co : Coalition) (s : Formula) :
    componentsOf (Formula.C co s) =
      s :: co.map (fun a => Formula.D [a] (Formula.C co s)) := rfl

/-- The components of a `¬h` with `h` in the subterm-closed base are in
the universe. -/
theorem univ_components_not {gamma : FormulaSet} {h0 : Formula}
    (hh : h0 ∈ baseXL gamma) :
    ∀ c ∈ componentsOf (Formula.not h0), c ∈ univList gamma := by
  cases h0 with
  | atom n => intro c hc; rw [componentsOf_not_atom] at hc; cases hc
  | not s =>
    intro c hc
    rw [componentsOf_not_not] at hc
    rcases List.mem_singleton.mp hc with rfl
    exact univ_of_baseXL (baseXL_child_not hh)
  | and l r =>
    intro c hc
    rw [componentsOf_not_and] at hc
    rcases List.mem_cons.mp hc with rfl | hc2
    · exact univ_of_not_baseXL (baseXL_child_and_left hh)
    · rcases List.mem_singleton.mp hc2 with rfl
      exact univ_of_not_baseXL (baseXL_child_and_right hh)
  | D co s => intro c hc; rw [componentsOf_not_D] at hc; cases hc
  | C co s =>
    intro c hc
    rw [componentsOf_not_C] at hc
    rcases List.mem_cons.mp hc with rfl | hc2
    · exact univ_of_not_baseXL (baseXL_child_C hh)
    · obtain ⟨a, ha, rfl⟩ := List.mem_map.mp hc2
      exact univ_of_not_cAug (mem_cAugL_iff.mpr ⟨co, s, a, hh, ha, rfl⟩)

/-- L2: the universe is closed under α/β-components. -/
theorem univ_components {gamma : FormulaSet} {f : Formula}
    (hf : f ∈ univList gamma) :
    ∀ c ∈ componentsOf f, c ∈ univList gamma := by
  rcases mem_univList_cases hf with hX | hAug | ⟨h0, hh0, rfl⟩
  · cases f with
    | atom n => intro c hc; rw [componentsOf_atom] at hc; cases hc
    | not s => exact univ_components_not (baseXL_child_not hX)
    | and l r =>
      intro c hc
      rw [componentsOf_and] at hc
      rcases List.mem_cons.mp hc with rfl | hc2
      · exact univ_of_baseXL (baseXL_child_and_left hX)
      · rcases List.mem_singleton.mp hc2 with rfl
        exact univ_of_baseXL (baseXL_child_and_right hX)
    | D co s =>
      intro c hc
      rw [componentsOf_D] at hc
      rcases List.mem_cons.mp hc with rfl | hc2
      · exact univ_of_baseXL hX
      · rcases List.mem_singleton.mp hc2 with rfl
        exact univ_of_baseXL (baseXL_child_D hX)
    | C co s =>
      intro c hc
      rw [componentsOf_C] at hc
      rcases List.mem_cons.mp hc with rfl | hc2
      · exact univ_of_baseXL (baseXL_child_C hX)
      · obtain ⟨a, ha, rfl⟩ := List.mem_map.mp hc2
        exact univ_of_cAug (mem_cAugL_iff.mpr ⟨co, s, a, hX, ha, rfl⟩)
  · obtain ⟨co, s, a, hCs, ha, rfl⟩ := mem_cAugL_iff.mp hAug
    intro c hc
    rw [componentsOf_D] at hc
    rcases List.mem_cons.mp hc with rfl | hc2
    · exact hf
    · rcases List.mem_singleton.mp hc2 with rfl
      exact univ_of_baseXL hCs
  · rcases hh0 with hX | hAug
    · exact univ_components_not hX
    · obtain ⟨co, s, a, hCs, ha, rfl⟩ := mem_cAugL_iff.mp hAug
      intro c hc
      rw [componentsOf_not_D] at hc
      cases hc

theorem subCollect_mem :
    ∀ (g : Formula) (acc : FormulaSet) (x : Formula),
      x ∈ subCollect g acc → x ∈ acc ∨ x ∈ subList g := by
  intro g
  induction g with
  | atom n =>
    intro acc x hx
    unfold subCollect at hx
    split at hx
    · exact Or.inl hx
    · rcases List.mem_append.mp hx with h | h
      · exact Or.inl h
      · rcases List.mem_singleton.mp h with rfl
        exact Or.inr (self_mem_subList _)
  | not s ih =>
    intro acc x hx
    unfold subCollect at hx
    split at hx
    · exact Or.inl hx
    · rcases ih _ x hx with h | h
      · rcases List.mem_append.mp h with h1 | h1
        · exact Or.inl h1
        · rcases List.mem_singleton.mp h1 with rfl
          exact Or.inr (self_mem_subList _)
      · exact Or.inr (List.mem_cons_of_mem _ h)
  | and l r ihl ihr =>
    intro acc x hx
    unfold subCollect at hx
    split at hx
    · exact Or.inl hx
    · rcases ihr _ x hx with h | h
      · rcases ihl _ x h with h2 | h2
        · rcases List.mem_append.mp h2 with h3 | h3
          · exact Or.inl h3
          · rcases List.mem_singleton.mp h3 with rfl
            exact Or.inr (self_mem_subList _)
        · exact Or.inr (List.mem_cons_of_mem _ (List.mem_append.mpr (Or.inl h2)))
      · exact Or.inr (List.mem_cons_of_mem _ (List.mem_append.mpr (Or.inr h)))
  | D co s ih =>
    intro acc x hx
    unfold subCollect at hx
    split at hx
    · exact Or.inl hx
    · rcases ih _ x hx with h | h
      · rcases List.mem_append.mp h with h1 | h1
        · exact Or.inl h1
        · rcases List.mem_singleton.mp h1 with rfl
          exact Or.inr (self_mem_subList _)
      · exact Or.inr (List.mem_cons_of_mem _ h)
  | C co s ih =>
    intro acc x hx
    unfold subCollect at hx
    split at hx
    · exact Or.inl hx
    · rcases ih _ x hx with h | h
      · rcases List.mem_append.mp h with h1 | h1
        · exact Or.inl h1
        · rcases List.mem_singleton.mp h1 with rfl
          exact Or.inr (self_mem_subList _)
      · exact Or.inr (List.mem_cons_of_mem _ h)

theorem subformulas_mem {f x : Formula} (h : x ∈ subformulas f) :
    x ∈ subList f := by
  rcases subCollect_mem f [] x h with h1 | h1
  · cases h1
  · exact h1

/-- L3: a `D`- or `C`-shaped subformula of a universe member is in the
universe together with its negation. -/
theorem univ_cut {gamma : FormulaSet} {psi sub : Formula}
    (hpsi : psi ∈ univList gamma) (hsub : sub ∈ subformulas psi)
    (hkind : (∃ co s, sub = Formula.D co s) ∨ (∃ co s, sub = Formula.C co s)) :
    sub ∈ univList gamma ∧ Formula.not sub ∈ univList gamma := by
  have hsub' : sub ∈ subList psi := subformulas_mem hsub
  rcases mem_univList_cases hpsi with hX | hAug | ⟨h0, hh0, rfl⟩
  · have : sub ∈ baseXL gamma := baseXL_closed hX hsub'
    exact ⟨univ_of_baseXL this, univ_of_not_baseXL this⟩
  · obtain ⟨co, s, a, hCs, ha, rfl⟩ := mem_cAugL_iff.mp hAug
    rcases List.mem_cons.mp hsub' with rfl | hmem
    · exact ⟨hpsi, univ_of_not_cAug (mem_cAugL_iff.mpr ⟨co, s, a, hCs, ha, rfl⟩)⟩
    · have : sub ∈ baseXL gamma := baseXL_closed hCs hmem
      exact ⟨univ_of_baseXL this, univ_of_not_baseXL this⟩
  · rcases List.mem_cons.mp hsub' with rfl | hmem
    · rcases hkind with ⟨co, s, h⟩ | ⟨co, s, h⟩ <;> cases h
    · rcases hh0 with hX | hAug
      · have : sub ∈ baseXL gamma := baseXL_closed hX hmem
        exact ⟨univ_of_baseXL this, univ_of_not_baseXL this⟩
      · obtain ⟨co, s, a, hCs, ha, rfl⟩ := mem_cAugL_iff.mp hAug
        rcases List.mem_cons.mp hmem with rfl | hmem2
        · exact ⟨univ_of_cAug hAug, univ_of_not_cAug hAug⟩
        · have : sub ∈ baseXL gamma := baseXL_closed hCs hmem2
          exact ⟨univ_of_baseXL this, univ_of_not_baseXL this⟩

/-- The member-level invariant of the expansion loop: every formula of
the set lies in the finite universe, and the member keys are pairwise
distinct (as they are for every set the TS `FormulaSet` class can
represent). -/
def memInv (gamma phi : FormulaSet) : Prop :=
  (∀ f ∈ phi, f ∈ univList gamma) ∧ (phi.map formulaKey).Nodup

theorem key_mem_uKeys {gamma : FormulaSet} {f : Formula}
    (h : f ∈ univList gamma) : formulaKey f ∈ uKeysList gamma :=
  mem_dedupStrings.mpr (List.mem_map.mpr ⟨f, h, rfl⟩)

theorem nodup_subset_length {l k : List String} (hl : l.Nodup) (hk : k.Nodup)
    (hsub : ∀ x ∈ l, x ∈ k) : l.length ≤ k.length := by
  have h1 : l.toFinset.card = l.length := List.toFinset_card_of_nodup hl
  have h2 : k.toFinset.card = k.length := List.toFinset_card_of_nodup hk
  have h3 : l.toFinset ⊆ k.toFinset := by
    intro x hx
    exact List.mem_toFinset.mpr (hsub x (List.mem_toFinset.mp hx))
  exact h1 ▸ h2 ▸ Finset.card_le_card h3

theorem memInv_length {gamma phi : FormulaSet} (h : memInv gamma phi) :
    phi.length ≤ (uKeysList gamma).length := by
  have := nodup_subset_length h.2 (nodup_dedupStrings _)
    (fun x hx => by
      obtain ⟨f, hf, rfl⟩ := List.mem_map.mp hx
      exact key_mem_uKeys (h.1 f hf))
  rw [List.length_map] at this
  exact this

theorem fsHas_false_key_not_mem {phi : FormulaSet} {f : Formula}
    (h : fsHas phi f = false) : formulaKey f ∉ phi.map formulaKey := by
  intro hmem
  obtain ⟨g, hg, hkey⟩ := List.mem_map.mp hmem
  have : fsHas phi f = true :=
    List.any_eq_true.mpr ⟨g, hg, beq_iff_eq.mpr hkey⟩
  rw [h] at this
  cases this

theorem fsAdd_length_new {phi : FormulaSet} {f : Formula}
    (h : fsHas phi f = false) : (fsAdd phi f).length = phi.length + 1 := by
  unfold fsAdd
  rw [h]
  simp

theorem fsAdd_memInv {gamma phi : FormulaSet} {f : Formula}
    (hphi : memInv gamma phi) (hf : f ∈ univList gamma) :
    memInv gamma (fsAdd phi f) := by
  unfold fsAdd
  split
  · exact hphi
  · rename_i hnot
    constructor
    · intro g hg
      rcases List.mem_append.mp hg with h1 | h1
      · exact hphi.1 g h1
      · rcases List.mem_singleton.mp h1 with rfl
        exact hf
    · rw [List.map_append]
      rw [List.nodup_append]
      refine ⟨hphi.2, List.nodup_singleton _, ?_⟩
      intro x hx hy
      rcases List.mem_singleton.mp hy with rfl
      exact fsHas_false_key_not_mem (Bool.eq_false_iff.mpr hnot) hx

theorem foldl_fsAdd_memInv {gamma : FormulaSet} :
    ∀ (l : List Formula) (phi : FormulaSet), memInv gamma phi →
      (∀ c ∈ l, c ∈ univList gamma) → memInv gamma (l.foldl fsAdd phi) := by
  intro l
  induction l with
  | nil => intro phi h _; exact h
  | cons c l ih =>
    intro phi h hl
    rw [List.foldl_cons]
    exact ih (fsAdd phi c) (fsAdd_memInv h (hl c (List.mem_cons_self c l)))
      (fun x hx => hl x (List.mem_cons_of_mem c hx))

theorem foldl_fsAdd_length_ge :
    ∀ (l : List Formula) (phi : FormulaSet),
      phi.length ≤ (l.foldl fsAdd phi).length := by
  intro l
  induction l with
  | nil => intro phi; exact Nat.le_refl _
  | cons c l ih =>
    intro phi
    rw [List.foldl_cons]
    refine Nat.le_trans ?_ (ih (fsAdd phi c))
    unfold fsAdd
    split
    · exact Nat.le_refl _
    · simp

theorem famWeight_append (gamma : FormulaSet) (a b : List FormulaSet) :
    famWeight gamma (a ++ b) = famWeight gamma a + famWeight gamma b := by
  unfold famWeight
  rw [List.map_append, List.sum_append]

theorem famWeight_cons (gamma : FormulaSet) (phi : FormulaSet)
    (l : List FormulaSet) :
    famWeight gamma (phi :: l) = setWeight gamma phi + famWeight gamma l := rfl

theorem setWeight_pos (gamma phi : FormulaSet) : 0 < setWeight gamma phi :=
  Nat.pos_pow_of_pos _ (by omega)

theorem famWeight_filter_le (gamma : FormulaSet) (p : FormulaSet → Bool) :
    ∀ l : List FormulaSet, famWeight gamma (l.filter p) ≤ famWeight gamma l := by
  intro l
  induction l with
  | nil => exact Nat.le_refl _
  | cons x xs ih =>
    rw [List.filter_cons]
    split
    · rw [famWeight_cons, famWeight_cons]
      exact Nat.add_le_add_left ih _
    · rw [famWeight_cons]
      exact Nat.le_trans ih (Nat.le_add_left _ _)

theorem famWeight_dedupAux_le (gamma : FormulaSet) :
    ∀ (l : List FormulaSet) (seen : List String),
      famWeight gamma (dedupAux seen l) ≤ famWeight gamma l := by
  intro l
  induction l with
  | nil => intro seen; exact Nat.le_refl _
  | cons x xs ih =>
    intro seen
    unfold dedupAux
    dsimp only
    split
    · exact Nat.le_trans (ih seen) (Nat.le_add_left _ _)
    · rw [famWeight_cons, famWeight_cons]
      exact Nat.add_le_add_left (ih _) _

theorem setWeight_lt {gamma phi psi : FormulaSet}
    (h1 : phi.length < psi.length)
    (h2 : psi.length ≤ (uKeysList gamma).length) :
    setWeight gamma psi < setWeight gamma phi := by
  unfold setWeight
  exact Nat.pow_lt_pow_right (by unfold bBase; omega) (by omega)

theorem mem_foldr_append {α β : Type} (f : α → List β) :
    ∀ (L : List α) (x : β),
      x ∈ L.foldr (fun a acc => f a ++ acc) [] ↔ ∃ a ∈ L, x ∈ f a := by
  intro L
  induction L with
  | nil => intro x; simp
  | cons a L ih =>
    intro x
    rw [List.foldr_cons, List.mem_append, ih]
    simp only [List.mem_cons]
    constructor
    · rintro (h | ⟨a', ha', hx⟩)
      · exact ⟨a, Or.inl rfl, h⟩
      · exact ⟨a', Or.inr ha', hx⟩
    · rintro ⟨a', rfl | ha', hx⟩
      · exact Or.inl hx
      · exact Or.inr ⟨a', ha', hx⟩

theorem fireKey_mem_pairList {gamma phi : FormulaSet} {f : Formula}
    (hphi : memInv gamma phi) (hf : f ∈ phi) :
    (fsKey phi ++ "|" ++ formulaKey f) ∈ pairList gamma := by
  unfold pairList
  rw [mem_foldr_append]
  refine ⟨(uKeysList gamma).filter
    (fun k => (phi.map formulaKey).contains k), ?_, ?_⟩
  · exact List.mem_sublists.mpr (List.filter_sublist _)
  · rw [List.mem_map]
    refine ⟨formulaKey f, key_mem_uKeys (hphi.1 f hf), ?_⟩
    have hnu : (uKeysList gamma).Nodup := nodup_dedupStrings _
    have hperm : ((uKeysList gamma).filter
        (fun k => (phi.map formulaKey).contains k)).Perm (phi.map formulaKey) := by
      rw [List.perm_ext_iff_of_nodup (hnu.filter _) hphi.2]
      intro k
      rw [List.mem_filter]
      constructor
      · rintro ⟨_, hc⟩
        exact contains_iff_mem.mp hc
      · intro hk
        refine ⟨?_, contains_iff_mem.mpr hk⟩
        obtain ⟨g, hg, rfl⟩ := List.mem_map.mp hk
        exact key_mem_uKeys (hphi.1 g hg)
    have : listSetKey ((uKeysList gamma).filter
        (fun k => (phi.map formulaKey).contains k)) = fsKey phi := by
      unfold listSetKey fsKey
      rw [sortKeys_eq_of_perm hperm]
    rw [this]

theorem r3_length_le_pairList {gamma : FormulaSet} {r3 : List String}
    (hnd : r3.Nodup) (hmem : ∀ k ∈ r3, k ∈ pairList gamma) :
    r3.length ≤ (pairList gamma).length := by
  have h1 : r3.toFinset.card = r3.length := List.toFinset_card_of_nodup hnd
  have h2 : r3.toFinset ⊆ (pairList gamma).toFinset := by
    intro x hx
    exact List.mem_toFinset.mpr (hmem x (List.mem_toFinset.mp hx))
  have h3 := Finset.card_le_card h2
  have h4 := List.toFinset_card_le (pairList gamma)
  omega

theorem orderedFormulas_subset {phi gamma : FormulaSet} {f : Formula}
    (h : f ∈ orderedFormulas phi gamma) : f ∈ phi := by
  rcases List.mem_append.mp h with h1 | h1 <;>
    exact (List.mem_filter.mp h1).1

theorem componentsOf_eq_of_alpha {f : Formula} {cs : List Formula}
    (h : classifyFormula f = Classification.alpha cs) : componentsOf f = cs := by
  unfold componentsOf
  rw [h]

theorem componentsOf_eq_of_beta {f : Formula} {cs : List Formula}
    (h : classifyFormula f = Classification.beta cs) : componentsOf f = cs := by
  unfold componentsOf
  rw [h]

theorem le_foldr_max : ∀ (l : List Nat) (x : Nat), x ∈ l → x ≤ l.foldr max 0 := by
  intro l
  induction l with
  | nil => intro x hx; cases hx
  | cons y ys ih =>
    intro x hx
    rw [List.foldr_cons]
    rcases List.mem_cons.mp hx with rfl | hmem
    · exact Nat.le_max_left _ _
    · exact Nat.le_trans (ih x hmem) (Nat.le_max_right _ _)

theorem le_maxCompLen {gamma : FormulaSet} {f : Formula}
    (h : f ∈ univList gamma) :
    (componentsOf f).length ≤ maxCompLen gamma :=
  le_foldr_max _ _ (List.mem_map.mpr ⟨f, h, rfl⟩)

theorem famWeight_const {gamma : FormulaSet} {v : Nat} :
    ∀ (l : List FormulaSet), (∀ b ∈ l, setWeight gamma b = v) →
      famWeight gamma l = l.length * v := by
  intro l
  induction l with
  | nil => intro _; simp [famWeight]
  | cons x xs ih =>
    intro h
    rw [famWeight_cons, ih (fun b hb => h b (List.mem_cons_of_mem x hb)),
      h x (List.mem_cons_self x xs), List.length_cons]
    ring

theorem tryAlphaRule_facts {gamma phi a : FormulaSet}
    (h : tryAlphaRule phi gamma = some a) (hinv : memInv gamma phi) :
    memInv gamma a ∧ phi.length < a.length := by
  obtain ⟨f, hford, hf⟩ := List.exists_of_findSome?_eq_some h
  have hfu : f ∈ univList gamma := hinv.1 f (orderedFormulas_subset hford)
  revert hf
  cases hcf : classifyFormula f with
  | elementary => intro hf; cases hf
  | beta cs => intro hf; cases hf
  | alpha cs =>
    intro hf
    dsimp only at hf
    split at hf
    · cases hf
    · rename_i hne
      cases hf
      have hcomps : ∀ c ∈ cs, c ∈ univList gamma := by
        intro c hc
        exact univ_components hfu c ((componentsOf_eq_of_alpha hcf) ▸ hc)
      constructor
      · exact foldl_fsAdd_memInv _ phi hinv
          (fun c hc => hcomps c (List.mem_filter.mp hc).1)
      · cases hm : cs.filter (fun c => !fsHas phi c) with
        | nil => rw [hm] at hne; exact absurd rfl hne
        | cons m ms =>
          rw [List.foldl_cons]
          have hmmem : m ∈ cs.filter (fun c => !fsHas phi c) := by
            rw [hm]; exact List.mem_cons_self m ms
          have hmnot : fsHas phi m = false := by
            have := (List.mem_filter.mp hmmem).2
            simpa using this
          have h1 : (fsAdd phi m).length = phi.length + 1 := fsAdd_length_new hmnot
          have h2 := foldl_fsAdd_length_ge ms (fsAdd phi m)
          omega

theorem tryBetaRule_facts {gamma phi : FormulaSet} {bs : List FormulaSet}
    (h : tryBetaRule phi gamma = some bs) (hinv : memInv gamma phi) :
    (∀ b ∈ bs, memInv gamma b) ∧
      famWeight gamma bs < setWeight gamma phi := by
  obtain ⟨f, hford, hf⟩ := List.exists_of_findSome?_eq_some h
  have hfu : f ∈ univList gamma := hinv.1 f (orderedFormulas_subset hford)
  revert hf
  cases hcf : classifyFormula f with
  | elementary => intro hf; cases hf
  | alpha cs => intro hf; cases hf
  | beta cs =>
    intro hf
    dsimp only at hf
    split at hf
    · cases hf
    · rename_i hnone
      cases hf
      have hcomps : ∀ c ∈ cs, c ∈ univList gamma := by
        intro c hc
        exact univ_components hfu c ((componentsOf_eq_of_beta hcf) ▸ hc)
      have hhasF : ∀ c ∈ cs, fsHas phi c = false := by
        intro c hc
        cases hcc : fsHas phi c with
        | false => rfl
        | true =>
          exact absurd (List.any_eq_true.mpr ⟨c, hc, hcc⟩)
            (fun hx => hnone hx)
      refine ⟨?_, ?_⟩
      · intro b hb
        obtain ⟨c, hc, rfl⟩ := List.mem_map.mp hb
        exact fsAdd_memInv hinv (hcomps c hc)
      · cases hcs : cs with
        | nil =>
          simpa [famWeight] using setWeight_pos gamma phi
        | cons c0 cs' =>
          rw [← hcs]
          have hWb : ∀ b ∈ cs.map (fsAdd phi), setWeight gamma b =
              (bBase gamma + 1) ^
                ((uKeysList gamma).length - (phi.length + 1)) := by
            intro b hb
            obtain ⟨c, hc, rfl⟩ := List.mem_map.mp hb
            unfold setWeight
            rw [fsAdd_length_new (hhasF c hc)]
          rw [famWeight_const (cs.map (fsAdd phi)) hWb, List.length_map]
          have hb0 : memInv gamma (fsAdd phi c0) :=
            fsAdd_memInv hinv (hcomps c0 (by rw [hcs]; exact List.mem_cons_self _ _))
          have hlenb0 : (fsAdd phi c0).length = phi.length + 1 :=
            fsAdd_length_new (hhasF c0 (by rw [hcs]; exact List.mem_cons_self _ _))
          have hlen_le : phi.length + 1 ≤ (uKeysList gamma).length := by
            have := memInv_length hb0
            omega
          have hk : cs.length ≤ maxCompLen gamma :=
            (componentsOf_eq_of_beta hcf) ▸ le_maxCompLen hfu
          unfold setWeight
          have hexp : (uKeysList gamma).length - phi.length =
              ((uKeysList gamma).length - (phi.length + 1)) + 1 := by omega
          rw [hexp, pow_succ]
          have hvpos : 0 <
              (bBase gamma + 1) ^
                ((uKeysList gamma).length - (phi.length + 1)) :=
            Nat.pos_pow_of_pos _ (by omega)
          have hklt : cs.length < bBase gamma + 1 := by
            unfold bBase at *
            omega
          calc cs.length *
                (bBase gamma + 1) ^
                  ((uKeysList gamma).length - (phi.length + 1)) <
              (bBase gamma + 1) *
                (bBase gamma + 1) ^
                  ((uKeysList gamma).length - (phi.length + 1)) :=
            (Nat.mul_lt_mul_right hvpos).mpr hklt
            _ = (bBase gamma + 1) ^
                  ((uKeysList gamma).length - (phi.length + 1)) *
                (bBase gamma + 1) := Nat.mul_comm _ _

theorem cutAtSub_facts {phi : FormulaSet} {rc : Bool} {psi sub : Formula}
    {bs : List FormulaSet} (h : cutAtSub phi rc psi sub = some bs) :
    bs = [fsAdd phi sub, fsAdd phi (Formula.not sub)] ∧
      fsHas phi sub = false ∧ fsHas phi (Formula.not sub) = false ∧
      ((∃ co s, sub = Formula.D co s) ∨ (∃ co s, sub = Formula.C co s)) := by
  cases sub with
  | D co s =>
    simp only [cutAtSub] at h
    split at h
    · rename_i hcond
      rw [Bool.and_eq_true, Bool.and_eq_true] at hcond
      refine ⟨(Option.some.inj h).symm, ?_, ?_, Or.inl ⟨co, s, rfl⟩⟩
      · have := hcond.1.1
        simpa using this
      · have := hcond.1.2
        simpa using this
    · cases h
  | C co s =>
    simp only [cutAtSub] at h
    split at h
    · rename_i hcond
      rw [Bool.and_eq_true, Bool.and_eq_true] at hcond
      refine ⟨(Option.some.inj h).symm, ?_, ?_, Or.inr ⟨co, s, rfl⟩⟩
      · have := hcond.1.1
        simpa using this
      · have := hcond.1.2
        simpa using this
    · cases h
  | atom n => simp only [cutAtSub] at h; cases h
  | not s => simp only [cutAtSub] at h; cases h
  | and l r => simp only [cutAtSub] at h; cases h

theorem tryCutRule_facts {gamma phi : FormulaSet} {rc : Bool}
    {bs : List FormulaSet} (h : tryCutRule phi rc = some bs)
    (hinv : memInv gamma phi) :
    (∀ b ∈ bs, memInv gamma b) ∧
      famWeight gamma bs < setWeight gamma phi := by
  obtain ⟨psi, hpsi, h1⟩ := List.exists_of_findSome?_eq_some h
  obtain ⟨sub, hsub, h2⟩ := List.exists_of_findSome?_eq_some h1
  obtain ⟨rfl, hh1, hh2, hkind⟩ := cutAtSub_facts h2
  have huniv := univ_cut (hinv.1 psi hpsi) hsub hkind
  have hm1 : memInv gamma (fsAdd phi sub) := fsAdd_memInv hinv huniv.1
  have hm2 : memInv gamma (fsAdd phi (Formula.not sub)) :=
    fsAdd_memInv hinv huniv.2
  refine ⟨?_, ?_⟩
  · intro b hb
    rcases List.mem_cons.mp hb with rfl | hb2
    · exact hm1
    · rcases List.mem_singleton.mp hb2 with rfl
      exact hm2
  · have hl1 : (fsAdd phi sub).length = phi.length + 1 := fsAdd_length_new hh1
    have hl2 : (fsAdd phi (Formula.not sub)).length = phi.length + 1 :=
      fsAdd_length_new hh2
    have hlen_le : phi.length + 1 ≤ (uKeysList gamma).length := by
      have := memInv_length hm1
      omega
    have hfw : famWeight gamma [fsAdd phi sub, fsAdd phi (Formula.not sub)] =
        2 * (bBase gamma + 1) ^
          ((uKeysList gamma).length - (phi.length + 1)) := by
      rw [famWeight_const _ ?_]
      · rfl
      · intro b hb
        unfold setWeight
        rcases List.mem_cons.mp hb with rfl | hb2
        · rw [hl1]
        · rcases List.mem_singleton.mp hb2 with rfl
          rw [hl2]
    rw [hfw]
    unfold setWeight
    have hexp : (uKeysList gamma).length - phi.length =
        ((uKeysList gamma).length - (phi.length + 1)) + 1 := by omega
    rw [hexp, pow_succ]
    have hvpos : 0 <
        (bBase gamma + 1) ^ ((uKeysList gamma).length - (phi.length + 1)) :=
      Nat.pos_pow_of_pos _ (by omega)
    calc 2 * (bBase gamma + 1) ^
            ((uKeysList gamma).length - (phi.length + 1)) <
        (bBase gamma + 1) *
          (bBase gamma + 1) ^
            ((uKeysList gamma).length - (phi.length + 1)) :=
      (Nat.mul_lt_mul_right hvpos).mpr (by unfold bBase; omega)
      _ = (bBase gamma + 1) ^
            ((uKeysList gamma).length - (phi.length + 1)) *
          (bBase gamma + 1) := Nat.mul_comm _ _

theorem rule3Step_facts {phi : FormulaSet} {r3 : List String} {f : Formula}
    {extra : FormulaSet} {key : String}
    (h : rule3Step phi r3 f = some (extra, key)) :
    key = fsKey phi ++ "|" ++ formulaKey f ∧ r3.contains key = false ∧
      ∃ co s, f = Formula.not (Formula.C co s) ∧
        extra = fsAdd phi (Formula.not s) := by
  cases f with
  | not s0 =>
    cases s0 with
    | C co s =>
      unfold rule3Step at h
      split at h
      · rename_i co2 s2 heq
        injection heq with h3
        injection h3 with h4 h5
        subst h4
        subst h5
        split at h
        · try dsimp only at h
          split at h
          · cases h
          · try dsimp only at h
            split at h
            · cases h
            · rename_i hcont
              try dsimp only at h
              split at h
              · have h2 := Option.some.inj h
                have hk : key = fsKey phi ++ "|" ++
                    formulaKey (Formula.not (Formula.C co s)) :=
                  (congrArg Prod.snd h2).symm
                refine ⟨hk, ?_, co, s, rfl, (congrArg Prod.fst h2).symm⟩
                rw [hk]
                exact Bool.eq_false_iff.mpr hcont
              · cases h
        · cases h
      · rename_i hne
        exact absurd rfl (hne co s)
    | atom n => cases h
    | not s1 => cases h
    | and l r => cases h
    | D co s => cases h
  | atom n => cases h
  | and l r => cases h
  | D co s => cases h
  | C co s => cases h

theorem rule3Aux_facts {gamma phi : FormulaSet} (hinv : memInv gamma phi) :
    ∀ (l : List Formula) (r3 : List String),
      (∀ x ∈ l, x ∈ phi) → r3.Nodup → (∀ k ∈ r3, k ∈ pairList gamma) →
      (∀ e ∈ (rule3Aux phi r3 l).1, memInv gamma e) ∧
        (rule3Aux phi r3 l).2.Nodup ∧
        (∀ k ∈ (rule3Aux phi r3 l).2, k ∈ pairList gamma) ∧
        (∀ k ∈ r3, k ∈ (rule3Aux phi r3 l).2) ∧
        (rule3Aux phi r3 l).2.length = r3.length + (rule3Aux phi r3 l).1.length ∧
        ((rule3Aux phi r3 l).1 = [] → (rule3Aux phi r3 l).2 = r3) := by
  intro l
  induction l with
  | nil =>
    intro r3 _ hnd hpl
    exact ⟨fun e he => absurd he (List.not_mem_nil e), hnd, hpl,
      fun k hk => hk, by simp [rule3Aux], fun _ => rfl⟩
  | cons f rest ih =>
    intro r3 hl hnd hpl
    unfold rule3Aux
    cases hstep : rule3Step phi r3 f with
    | none =>
      exact ih r3 (fun x hx => hl x (List.mem_cons_of_mem f hx)) hnd hpl
    | some ek =>
      obtain ⟨extra, key⟩ := ek
      obtain ⟨hkey, hcont, co, s, hf, hextra⟩ := rule3Step_facts hstep
      dsimp only
      have hfphi : Formula.not (Formula.C co s) ∈ phi :=
        hf ▸ hl f (List.mem_cons_self f rest)
      have hknew : key ∉ r3 := by
        intro hmem
        rw [contains_iff_mem.mpr hmem] at hcont
        cases hcont
      have hkpl : key ∈ pairList gamma := by
        rw [hkey, hf]
        exact fireKey_mem_pairList hinv hfphi
      have hnd1 : (key :: r3).Nodup := List.nodup_cons.mpr ⟨hknew, hnd⟩
      have hpl1 : ∀ k ∈ key :: r3, k ∈ pairList gamma := by
        intro k hk
        rcases List.mem_cons.mp hk with rfl | hk2
        · exact hkpl
        · exact hpl k hk2
      obtain ⟨ih1, ih2, ih3, ih4, ih5, ih6⟩ :=
        ih (key :: r3) (fun x hx => hl x (List.mem_cons_of_mem f hx)) hnd1 hpl1
      refine ⟨?_, ih2, ih3, ?_, ?_, ?_⟩
      · intro e he
        rcases List.mem_cons.mp he with rfl | he2
        · rw [hextra]
          have hfu : Formula.not (Formula.C co s) ∈ univList gamma :=
            hinv.1 _ hfphi
          have hns : Formula.not s ∈ univList gamma :=
            univ_components hfu _
              (by rw [componentsOf_not_C]; exact List.mem_cons_self _ _)
          exact fsAdd_memInv hinv hns
        · exact ih1 e he2
      · intro k hk
        exact ih4 k (List.mem_cons_of_mem key hk)
      · rw [ih5]
        simp [List.length_cons]
        omega
      · intro habs
        cases habs

theorem famWeight_nil (gamma : FormulaSet) : famWeight gamma [] = 0 := rfl

theorem setWeight_lt_bigC (gamma phi : FormulaSet) :
    setWeight gamma phi < bigC gamma := by
  unfold setWeight bigC
  have h1 : (bBase gamma + 1) ^ ((uKeysList gamma).length - phi.length) ≤
      (bBase gamma + 1) ^ (uKeysList gamma).length :=
    Nat.pow_le_pow_right (by omega) (Nat.sub_le _ _)
  omega

theorem famWeight_succ_le (gamma : FormulaSet) :
    ∀ l : List FormulaSet,
      famWeight gamma l + l.length ≤ l.length * bigC gamma := by
  intro l
  induction l with
  | nil => simp [famWeight]
  | cons x xs ih =>
    rw [famWeight_cons, List.length_cons, Nat.succ_mul]
    have hx := setWeight_lt_bigC gamma x
    omega

theorem processSet_measure {gamma : FormulaSet} (ec rc : Bool)
    {phi : FormulaSet} {r3 : List String}
    (hinv : memInv gamma phi) (hnd : r3.Nodup)
    (hpl : ∀ k ∈ r3, k ∈ pairList gamma) :
    (∀ e ∈ (processSet gamma ec rc phi r3).1, memInv gamma e) ∧
      (∀ e ∈ (processSet gamma ec rc phi r3).2.1, memInv gamma e) ∧
      (processSet gamma ec rc phi r3).2.2.1.Nodup ∧
      (∀ k ∈ (processSet gamma ec rc phi r3).2.2.1, k ∈ pairList gamma) ∧
      (bigC gamma * ((pairList gamma).length -
          (processSet gamma ec rc phi r3).2.2.1.length) +
        famWeight gamma ((processSet gamma ec rc phi r3).1 ++
          (processSet gamma ec rc phi r3).2.1) ≤
        bigC gamma * ((pairList gamma).length - r3.length) +
          setWeight gamma phi) ∧
      ((processSet gamma ec rc phi r3).2.2.2 = true →
        bigC gamma * ((pairList gamma).length -
            (processSet gamma ec rc phi r3).2.2.1.length) +
          famWeight gamma ((processSet gamma ec rc phi r3).1 ++
            (processSet gamma ec rc phi r3).2.1) <
          bigC gamma * ((pairList gamma).length - r3.length) +
            setWeight gamma phi) ∧
      ((processSet gamma ec rc phi r3).2.2.2 = false →
        (processSet gamma ec rc phi r3).1 = [phi] ∧
        (processSet gamma ec rc phi r3).2.1 = [] ∧
        (processSet gamma ec rc phi r3).2.2.1 = r3) := by
  unfold processSet tryRule3
  cases ha : tryAlphaRule phi gamma with
  | some a =>
    obtain ⟨hamem, halen⟩ := tryAlphaRule_facts ha hinv
    try dsimp only
    split
    · refine ⟨?_, ?_, hnd, hpl, ?_, ?_, ?_⟩
      · intro e he
        cases he
      · intro e he
        cases he
      · simp only [List.append_nil, famWeight_nil]
        have := setWeight_pos gamma phi
        omega
      · intro _
        simp only [List.append_nil, famWeight_nil]
        have := setWeight_pos gamma phi
        omega
      · intro h
        cases h
    · refine ⟨?_, ?_, hnd, hpl, ?_, ?_, ?_⟩
      · intro e he
        rcases List.mem_singleton.mp he with rfl
        exact hamem
      · intro e he
        cases he
      · have hswa : setWeight gamma a < setWeight gamma phi :=
          setWeight_lt halen (memInv_length hamem)
        simp only [List.append_nil, famWeight_cons, famWeight_nil]
        omega
      · intro _
        have hswa : setWeight gamma a < setWeight gamma phi :=
          setWeight_lt halen (memInv_length hamem)
        simp only [List.append_nil, famWeight_cons, famWeight_nil]
        omega
      · intro h
        cases h
  | none =>
    cases hb : tryBetaRule phi gamma with
    | some bs =>
      obtain ⟨hbmem, hblt⟩ := tryBetaRule_facts hb hinv
      try dsimp only
      refine ⟨?_, ?_, hnd, hpl, ?_, ?_, ?_⟩
      · intro e he
        exact hbmem e (List.mem_filter.mp he).1
      · intro e he
        cases he
      · have h1 := famWeight_filter_le gamma
          (fun s => !isPatentlyInconsistent s) bs
        simp only [List.append_nil]
        omega
      · intro _
        have h1 := famWeight_filter_le gamma
          (fun s => !isPatentlyInconsistent s) bs
        simp only [List.append_nil]
        omega
      · intro h
        cases h
    | none =>
      try dsimp only
      split
      · cases ec with
        | true =>
          try dsimp only
          split
          · cases hc : tryCutRule phi rc with
            | some bs =>
              obtain ⟨hcmem, hclt⟩ := tryCutRule_facts hc hinv
              try dsimp only
              refine ⟨?_, ?_, hnd, hpl, ?_, ?_, ?_⟩
              · intro e he
                exact hcmem e (List.mem_filter.mp he).1
              · intro e he
                cases he
              · have h1 := famWeight_filter_le gamma
                  (fun s => !isPatentlyInconsistent s) bs
                simp only [List.append_nil]
                omega
              · intro _
                have h1 := famWeight_filter_le gamma
                  (fun s => !isPatentlyInconsistent s) bs
                simp only [List.append_nil]
                omega
              · intro h
                cases h
            | none =>
              try dsimp only
              refine ⟨?_, ?_, hnd, hpl, ?_, ?_, ?_⟩
              · intro e he
                rcases List.mem_singleton.mp he with rfl
                exact hinv
              · intro e he
                cases he
              · simp only [List.append_nil, famWeight_cons, famWeight_nil]
                omega
              · intro h
                cases h
              · intro _
                exact ⟨rfl, rfl, rfl⟩
          · rename_i hF
            exact absurd (by trivial) hF
        | false =>
          try dsimp only
          split
          · rename_i hT
            exact absurd hT (by simp)
          · try dsimp only
            refine ⟨?_, ?_, hnd, hpl, ?_, ?_, ?_⟩
            · intro e he
              rcases List.mem_singleton.mp he with rfl
              exact hinv
            · intro e he
              cases he
            · simp only [List.append_nil, famWeight_cons, famWeight_nil]
              omega
            · intro h
              cases h
            · intro _
              exact ⟨rfl, rfl, rfl⟩
      · rename_i hne
        try dsimp only
        obtain ⟨hx1, hx2, hx3, hx4, hx5, hx6⟩ :=
          rule3Aux_facts hinv phi r3 (fun x hx => hx) hnd hpl
        have hnil : (rule3Aux phi r3 phi).1 ≠ [] := by
          intro h0
          exact hne (by rw [h0]; rfl)
        have hn1 : 1 ≤ (rule3Aux phi r3 phi).1.length := by
          cases hL : (rule3Aux phi r3 phi).1 with
          | nil => exact absurd hL hnil
          | cons x xs => simp
        have hr2len : (rule3Aux phi r3 phi).2.length ≤ (pairList gamma).length :=
          r3_length_le_pairList hx2 hx3
        have hsub : (pairList gamma).length - r3.length =
            ((pairList gamma).length - (rule3Aux phi r3 phi).2.length) +
              (rule3Aux phi r3 phi).1.length := by
          omega
        have hfwf := famWeight_filter_le gamma
          (fun s => !isPatentlyInconsistent s) (rule3Aux phi r3 phi).1
        have hfsl := famWeight_succ_le gamma (rule3Aux phi r3 phi).1
        refine ⟨?_, ?_, hx2, hx3, ?_, ?_, ?_⟩
        · intro e he
          rcases List.mem_singleton.mp he with rfl
          exact hinv
        · intro e he
          exact hx1 e (List.mem_filter.mp he).1
        · rw [hsub, Nat.mul_add, List.singleton_append, famWeight_cons,
            Nat.mul_comm (bigC gamma) (rule3Aux phi r3 phi).1.length]
          omega
        · intro _
          rw [hsub, Nat.mul_add, List.singleton_append, famWeight_cons,
            Nat.mul_comm (bigC gamma) (rule3Aux phi r3 phi).1.length]
          omega
        · intro h
          cases h

theorem passAux_measure {gamma : FormulaSet} (ec rc : Bool) :
    ∀ (L : List FormulaSet) (r3 : List String),
      (∀ phi ∈ L, memInv gamma phi) → r3.Nodup →
      (∀ k ∈ r3, k ∈ pairList gamma) →
      (∀ e ∈ (passAux gamma ec rc L r3).1, memInv gamma e) ∧
        (∀ e ∈ (passAux gamma ec rc L r3).2.1, memInv gamma e) ∧
        (passAux gamma ec rc L r3).2.2.1.Nodup ∧
        (∀ k ∈ (passAux gamma ec rc L r3).2.2.1, k ∈ pairList gamma) ∧
        (bigC gamma * ((pairList gamma).length -
            (passAux gamma ec rc L r3).2.2.1.length) +
          famWeight gamma ((passAux gamma ec rc L r3).1 ++
            (passAux gamma ec rc L r3).2.1) ≤
          bigC gamma * ((pairList gamma).length - r3.length) +
            famWeight gamma L) ∧
        ((passAux gamma ec rc L r3).2.2.2 = true →
          bigC gamma * ((pairList gamma).length -
              (passAux gamma ec rc L r3).2.2.1.length) +
            famWeight gamma ((passAux gamma ec rc L r3).1 ++
              (passAux gamma ec rc L r3).2.1) <
            bigC gamma * ((pairList gamma).length - r3.length) +
              famWeight gamma L) := by
  intro L
  induction L with
  | nil =>
    intro r3 _ hnd hpl
    refine ⟨?_, ?_, hnd, hpl, ?_, ?_⟩
    · intro e he
      cases he
    · intro e he
      cases he
    · simp only [passAux, List.append_nil, famWeight_nil]
      exact Nat.le_refl _
    · intro h
      cases h
  | cons phi rest ih =>
    intro r3 hmem hnd hpl
    obtain ⟨p1, p2, p3, p4, p5, p6, p7⟩ :=
      processSet_measure ec rc (hmem phi (List.mem_cons_self phi rest)) hnd hpl
    obtain ⟨t1, t2, t3, t4, t5, t6⟩ :=
      ih (processSet gamma ec rc phi r3).2.2.1
        (fun x hx => hmem x (List.mem_cons_of_mem phi hx)) p3 p4
    simp only [passAux]
    try dsimp only
    refine ⟨?_, ?_, t3, t4, ?_, ?_⟩
    · intro e he
      rcases List.mem_append.mp he with h1 | h1
      · exact p1 e h1
      · exact t1 e h1
    · intro e he
      rcases List.mem_append.mp he with h1 | h1
      · exact p2 e h1
      · exact t2 e h1
    · have p5h := p5
      have t5h := t5
      rw [famWeight_append] at p5h t5h
      simp only [famWeight_append, famWeight_cons]
      omega
    · intro hch
      have p5h := p5
      have t5h := t5
      rw [famWeight_append] at p5h t5h
      simp only [famWeight_append, famWeight_cons]
      rcases Bool.or_eq_true_iff.mp hch with hh | ht
      · have hs := p6 hh
        rw [famWeight_append] at hs
        omega
      · have hs := t6 ht
        rw [famWeight_append] at hs
        omega

theorem expandLoop_term {gamma : FormulaSet} (ec rc : Bool) :
    ∀ (fuel : Nat) (family : List FormulaSet) (r3 : List String),
      (∀ phi ∈ family, memInv gamma phi) → r3.Nodup →
      (∀ k ∈ r3, k ∈ pairList gamma) →
      bigC gamma * ((pairList gamma).length - r3.length) +
          famWeight gamma family < fuel →
      ∃ fam, expandLoop gamma ec rc fuel family r3 = some fam := by
  intro fuel
  induction fuel with
  | zero =>
    intro family r3 _ _ _ hlt
    exact absurd hlt (Nat.not_lt_zero _)
  | succ fuel ih =>
    intro family r3 hmem hnd hpl hlt
    obtain ⟨q1, q2, q3, q4, q5, q6⟩ := passAux_measure ec rc family r3 hmem hnd hpl
    unfold expandLoop
    try dsimp only
    cases hch : (passAux gamma ec rc family r3).2.2.2 with
    | false =>
      exact ⟨_, rfl⟩
    | true =>
      show ∃ fam, expandLoop gamma ec rc fuel
        (deduplicateSets ((passAux gamma ec rc family r3).1 ++
          (passAux gamma ec rc family r3).2.1))
        (passAux gamma ec rc family r3).2.2.1 = some fam
      apply ih
      · intro phi hphi
        rcases List.mem_append.mp (mem_deduplicateSets hphi) with h1 | h1
        · exact q1 phi h1
        · exact q2 phi h1
      · exact q3
      · exact q4
      · have hdw := famWeight_dedupAux_le gamma
          ((passAux gamma ec rc family r3).1 ++
            (passAux gamma ec rc family r3).2.1) []
        have hs := q6 hch
        unfold deduplicateSets
        omega

theorem pairList_length (gamma : FormulaSet) :
    (pairList gamma).length =
      2 ^ (uKeysList gamma).length * (uKeysList gamma).length := by
  unfold pairList
  have h : ∀ L : List (List String),
      (L.foldr (fun S acc =>
        (uKeysList gamma).map (fun k => listSetKey S ++ "|" ++ k) ++ acc)
        []).length =
      L.length * (uKeysList gamma).length := by
    intro L
    induction L with
    | nil => simp
    | cons S L ih =>
      rw [List.foldr_cons, List.length_append, List.length_map, ih,
        List.length_cons]
      ring
  rw [h, List.length_sublists]

/-- **C6.**  For every input set `Γ` (with the `FormulaSet` representation
invariant that member keys are pairwise distinct) and every combination of
the `cuts`/`restrictedCuts` options, the `while (changed)` saturation loop
of `expandCore` terminates: the fuelled rendering of the loop reaches its
no-change fixpoint and returns a final family within the `expansionFuel Γ`
bound (the fuel `expandCore` supplies), rather than running out of fuel.
The measure is the one named by the claim: every rule adds formulas from
the finite universe `univList Γ`, and rule 3 is memoized by
`(set key, formula key)` pairs from the finite `pairList Γ`. -/
theorem expansion_terminates (gamma : FormulaSet) (ec rc : Bool)
    (hkeys : (gamma.map formulaKey).Nodup) :
    ∃ fam, expandLoop gamma ec rc (expansionFuel gamma) [gamma] [] = some fam := by
  apply expandLoop_term ec rc
  · intro phi hphi
    rcases List.mem_singleton.mp hphi with rfl
    exact ⟨fun f hf => univ_of_baseXL (baseXL_self hf), hkeys⟩
  · exact List.nodup_nil
  · intro k hk
    cases hk
  · have hP := pairList_length gamma
    have hsw : setWeight gamma gamma < bigC gamma := setWeight_lt_bigC gamma gamma
    have hbig : bigC gamma =
        (bBase gamma + 1) ^ (uKeysList gamma).length + 1 := rfl
    unfold expansionFuel
    rw [famWeight_cons, famWeight_nil]
    simp only [List.length_nil, Nat.sub_zero]
    rw [hP]
    omega

/-- Witness for `expansion_terminates`: the loop on `Γ = {p}` with cuts
enabled and restricted reaches its fixpoint within the fuel bound. -/
theorem expansion_terminates_witness :
    (([Formula.atom "p"] : FormulaSet).map formulaKey).Nodup ∧
      ∃ fam, expandLoop [Formula.atom "p"] true true
        (expansionFuel [Formula.atom "p"]) [[Formula.atom "p"]] [] = some fam :=
  ⟨by decide, expansion_terminates [Formula.atom "p"] true true (by decide)⟩

end CMAEL
